import Mathlib

/-!
Verification of the `video_annotation` repository against its natural-language
specification.  The Python sources are shallowly embedded: JSON values become an
inductive type, dictionary/string primitives are modelled with Python semantics
(truthiness, `dict.get`, exceptions as `Except`), and the functions named in the
claims are translated statement by statement from the source files.
-/

set_option maxRecDepth 4000

/-- A JSON value as produced by `json.loads`.  Python `None` (JSON `null`) is
`Json.null`; objects keep their key order as an association list (duplicate
keys never arise from `json.loads`, which keeps the last; lookups take the
first match, which coincides on duplicate-free lists).  JSON numbers are
modelled as integers; none of the verified code inspects fractional parts
(only nullness and truthiness of numbers matter, and `0.0` is falsy exactly
like `0`). -/
inductive Json where
  | null : Json
  | bool (b : Bool) : Json
  | num (n : Int) : Json
  | str (s : String) : Json
  | arr (elems : List Json) : Json
  | obj (fields : List (String × Json)) : Json

/-- Python exceptions that the embedded fragments can raise. -/
inductive PyErr where
  | attributeError : PyErr
  | typeError : PyErr
deriving DecidableEq, Repr

/-- Python truthiness (`bool(x)`) of a JSON value: `None`, `False`, `0`, `""`,
`[]` and the empty dict are falsy, everything else is truthy. -/
def truthy : Json → Bool
  | .null => false
  | .bool b => b
  | .num n => n != 0
  | .str s => s != ""
  | .arr elems => !elems.isEmpty
  | .obj fields => !fields.isEmpty

/-- Pure dictionary lookup on an object: first binding of the key, if any. -/
def jlookup (fields : List (String × Json)) (k : String) : Option Json :=
  (fields.find? (fun p => p.1 == k)).map (fun p => p.2)

/-- Python `x.get(k)`: `AttributeError` unless `x` is a dict, otherwise the
value bound to `k` (`None`, i.e. absent, when the key is missing). -/
def dictGet (x : Json) (k : String) : Except PyErr (Option Json) :=
  match x with
  | .obj fields => .ok (jlookup fields k)
  | _ => .error .attributeError

/-- Python `v is not None` applied to the result of a `.get` call: false when
the key was absent or bound to JSON `null` (which `json.loads` turns into
Python `None`), true otherwise. -/
def isNotNone : Option Json → Bool
  | none => false
  | some .null => false
  | some _ => true

/-- Python `len(x)`: defined for strings, lists and dicts, `TypeError`
otherwise. -/
def pyLen : Json → Except PyErr Nat
  | .str s => .ok s.length
  | .arr elems => .ok elems.length
  | .obj fields => .ok fields.length
  | _ => .error .typeError

/-- Python iteration (`for x in v`): a string yields its characters, a list its
elements, a dict its keys; other values raise `TypeError`. -/
def pyIter : Json → Except PyErr (List Json)
  | .str s => .ok (s.toList.map (fun c => .str (String.mk [c])))
  | .arr elems => .ok elems
  | .obj fields => .ok (fields.map (fun p => .str p.1))
  | _ => .error .typeError

/-- The `required_fields` list of `is_annotation_complete`
(caption_dataset_viewer/server.py line 32). -/
def required_fields : List String :=
  ["overall", "camera", "subject", "motion", "scene", "spatial"]

/-- The generator `all(annotation.get(field) is not None for field in
required_fields)`: short-circuits at the first `False`; `annotation.get`
raises when `annotation` is not a dict. -/
def allRatings (ann : Json) : List String → Except PyErr Bool
  | [] => .ok true
  | f :: rest => do
    let v ← dictGet ann f
    if isNotNone v then allRatings ann rest else return false

/-- One conjunct of the segment generator:
`seg.get('startIndex') is not None and seg.get('endIndex') is not None`. -/
def segFieldsOk (seg : Json) : Except PyErr Bool := do
  let s ← dictGet seg "startIndex"
  if isNotNone s then
    let e ← dictGet seg "endIndex"
    return isNotNone e
  else
    return false

/-- The generator `all(seg.get('startIndex') is not None and ... for seg in
annotation['segments'])`, short-circuiting at the first `False`. -/
def allSegs : List Json → Except PyErr Bool
  | [] => .ok true
  | seg :: rest => do
    let b ← segFieldsOk seg
    if b then allSegs rest else return false

/-- The condition `annotation.get('segments') and len(annotation['segments'])
> 0`: Python `and` short-circuits, so `len` is evaluated (and may raise) only
when the `segments` value is truthy. -/
def segCond (segs : Option Json) : Except PyErr Bool :=
  match segs with
  | none => .ok false
  | some s =>
    if truthy s then do
      let n ← pyLen s
      return decide (0 < n)
    else
      .ok false

/-- `is_annotation_complete` from caption_dataset_viewer/server.py (lines
26-47), statement by statement: empty/falsy input returns `False`; all six
rating fields must be non-null; when the `segments` value is truthy and
nonempty every segment must carry non-null `startIndex` and `endIndex`. -/
def is_annotation_complete (ann : Json) : Except PyErr Bool :=
  if !truthy ann then .ok false
  else do
  let all_ratings_complete ← allRatings ann required_fields
  let segs ← dictGet ann "segments"
  let cond ← segCond segs
  let segments_valid ←
    if cond then do
      let elems ← pyIter (segs.getD .null)
      allSegs elems
    else
      pure true
  return all_ratings_complete && segments_valid

/-- `ViewerHandler.is_annotation_complete` from caption_dataset_viewer/viewer.py
(lines 134-152); the body is character-for-character the same as the server
version, so the embedding repeats the same statements. -/
def viewer_is_annotation_complete (ann : Json) : Except PyErr Bool :=
  if !truthy ann then .ok false
  else do
  let all_ratings_complete ← allRatings ann required_fields
  let segs ← dictGet ann "segments"
  let cond ← segCond segs
  let segments_valid ←
    if cond then do
      let elems ← pyIter (segs.getD .null)
      allSegs elems
    else
      pure true
  return all_ratings_complete && segments_valid

/-- `is_annotation_complete` from caption_dataset_viewer/download_videos.py
(lines 30-48); again textually identical to the server version. -/
def dlv_is_annotation_complete (ann : Json) : Except PyErr Bool :=
  if !truthy ann then .ok false
  else do
  let all_ratings_complete ← allRatings ann required_fields
  let segs ← dictGet ann "segments"
  let cond ← segCond segs
  let segments_valid ←
    if cond then do
      let elems ← pyIter (segs.getD .null)
      allSegs elems
    else
      pure true
  return all_ratings_complete && segments_valid

/-- Spec-side reading of the claim: a segment element "has non-null
startIndex and endIndex" (a non-object element has neither). -/
def specSegOk (seg : Json) : Bool :=
  match seg with
  | .obj fs => isNotNone (jlookup fs "startIndex") && isNotNone (jlookup fs "endIndex")
  | _ => false

/-- Spec-side reading of "its segments list": the elements when the
`segments` field holds a list, and no elements otherwise. -/
def specSegmentsList (fields : List (String × Json)) : List Json :=
  match jlookup fields "segments" with
  | some (.arr elems) => elems
  | _ => []

/-- The completeness condition exactly as claim C1 words it: all six rating
fields non-null, and every element of the segments list with non-null
startIndex and endIndex. -/
def claimComplete (fields : List (String × Json)) : Bool :=
  required_fields.all (fun f => isNotNone (jlookup fields f)) &&
  (specSegmentsList fields).all specSegOk

/-- Whether a value is a JSON object. -/
def isObjB : Json → Bool
  | .obj _ => true
  | _ => false

/-- The inputs on which the segment scan of `is_annotation_complete` cannot
raise: the `segments` field is absent, falsy, or a list all of whose elements
are objects. -/
def goodSegments (fields : List (String × Json)) : Bool :=
  match jlookup fields "segments" with
  | none => true
  | some v =>
    !truthy v ||
      (match v with
       | .arr elems => elems.all isObjB
       | _ => false)

theorem exbind_ok {α β : Type} (a : α) (f : α → Except PyErr β) :
    (Except.ok a >>= f : Except PyErr β) = f a := rfl

theorem exbind_err {α β : Type} (e : PyErr) (f : α → Except PyErr β) :
    (Except.error e >>= f : Except PyErr β) = Except.error e := rfl

theorem expure {α : Type} (a : α) : (pure a : Except PyErr α) = Except.ok a := rfl

theorem allRatings_obj (fs : List (String × Json)) (l : List String) :
    allRatings (.obj fs) l = .ok (l.all (fun f => isNotNone (jlookup fs f))) := by
  induction l with
  | nil => rfl
  | cons f rest ih =>
    simp only [allRatings, dictGet, List.all_cons, exbind_ok]
    by_cases h : isNotNone (jlookup fs f)
    · simp [h, ih, expure]
    · simp only [Bool.not_eq_true] at h
      simp [h, expure]

theorem segFieldsOk_obj (fs : List (String × Json)) :
    segFieldsOk (.obj fs) =
      .ok (isNotNone (jlookup fs "startIndex") && isNotNone (jlookup fs "endIndex")) := by
  simp only [segFieldsOk, dictGet, exbind_ok]
  by_cases h : isNotNone (jlookup fs "startIndex")
  · simp [h, expure]
  · simp only [Bool.not_eq_true] at h
    simp [h, expure]

theorem allSegs_objElems (elems : List Json) (h : ∀ e ∈ elems, isObjB e = true) :
    allSegs elems = .ok (elems.all specSegOk) := by
  induction elems with
  | nil => rfl
  | cons e rest ih =>
    have he : isObjB e = true := h e (List.mem_cons_self e rest)
    obtain ⟨fs, rfl⟩ : ∃ fs, e = .obj fs := by
      cases e <;> simp [isObjB] at he ⊢
    have hrest : ∀ x ∈ rest, isObjB x = true := fun x hx => h x (List.mem_cons_of_mem _ hx)
    simp only [allSegs, segFieldsOk_obj, exbind_ok, List.all_cons, specSegOk]
    by_cases hs : isNotNone (jlookup fs "startIndex") && isNotNone (jlookup fs "endIndex")
    · simp [hs, ih hrest, expure]
    · simp only [Bool.not_eq_true] at hs
      simp [hs, expure]

theorem complete_eval_good (fields : List (String × Json))
    (hg : goodSegments fields = true) :
    is_annotation_complete (.obj fields) = .ok (claimComplete fields) := by
  by_cases hf : fields.isEmpty = true
  · rw [List.isEmpty_iff] at hf
    subst hf
    rfl
  · have ht : truthy (.obj fields) = true := by
      simp only [truthy, Bool.not_eq_true']
      simpa using hf
    simp only [is_annotation_complete, ht, Bool.not_true, Bool.false_eq_true, if_false,
      allRatings_obj, dictGet, exbind_ok]
    cases hseg : jlookup fields "segments" with
    | none =>
      simp [segCond, exbind_ok, expure, claimComplete, specSegmentsList, hseg]
    | some v =>
      by_cases htv : truthy v = true
      · have hv : ∃ elems, v = .arr elems ∧ elems.all isObjB = true := by
          have hg2 := hg
          simp only [goodSegments, hseg, htv, Bool.not_true, Bool.false_or] at hg2
          cases v with
          | arr elems => exact ⟨elems, rfl, hg2⟩
          | null => exact absurd hg2 (by simp)
          | bool b => exact absurd hg2 (by simp)
          | num n => exact absurd hg2 (by simp)
          | str s => exact absurd hg2 (by simp)
          | obj fs => exact absurd hg2 (by simp)
        obtain ⟨elems, rfl, hall⟩ := hv
        have hne : 0 < elems.length := by
          cases elems with
          | nil => simp [truthy] at htv
          | cons e rest => simp
        have hmem : ∀ e ∈ elems, isObjB e = true := by
          simpa [List.all_eq_true] using hall
        simp [segCond, htv, pyLen, hne, exbind_ok, expure, pyIter,
          allSegs_objElems elems hmem, claimComplete, specSegmentsList, hseg]
      · have hempty : (specSegmentsList fields).all specSegOk = true := by
          simp only [specSegmentsList, hseg]
          cases v with
          | arr elems =>
            have : elems.isEmpty = true := by
              simpa [truthy, Bool.not_eq_true] using htv
            rw [List.isEmpty_iff] at this
            subst this
            rfl
          | null => rfl
          | bool b => rfl
          | num n => rfl
          | str s => rfl
          | obj fs => rfl
        simp [segCond, htv, exbind_ok, expure, claimComplete, hempty]

/-- An annotation with all six ratings non-null whose segments entry is a
list containing a bare number: the segment scan calls `.get` on the number. -/
def C1badFields : List (String × Json) :=
  [("overall", .num 1), ("camera", .num 1), ("subject", .num 1),
   ("motion", .num 1), ("scene", .num 1), ("spatial", .num 1),
   ("segments", .arr [.num 5])]

/-- Claim C1 counterexample: on a JSON object whose segments list holds a
non-object element, `is_annotation_complete` raises `AttributeError`
(`seg.get` on an `int`) instead of returning the `False` the claim
prescribes for this input. -/
theorem claim_C1_counterexample :
    is_annotation_complete (.obj C1badFields) ≠ .ok (claimComplete C1badFields) ∧
    is_annotation_complete (.obj C1badFields) = .error .attributeError := by
  constructor
  · intro h
    have h2 : is_annotation_complete (.obj C1badFields) = .error .attributeError := by rfl
    rw [h2] at h
    exact Except.noConfusion h
  · rfl

/-- Claim C1 (amended): restricted to annotation objects on which the segment
scan cannot raise (segments absent, falsy, or a list of objects),
`is_annotation_complete` returns `True` exactly when all six rating fields
are non-null and every segment element has non-null `startIndex` and
`endIndex`, and returns `False` on every other such object. -/
theorem claim_C1_segment_predicate (fields : List (String × Json))
    (hg : goodSegments fields = true) :
    is_annotation_complete (.obj fields) = .ok (claimComplete fields) :=
  complete_eval_good fields hg

/-- An annotation record satisfying the completeness predicate. -/
def C1goodFields : List (String × Json) :=
  [("overall", .num 1), ("camera", .num 2), ("subject", .num 3),
   ("motion", .num 4), ("scene", .num 5), ("spatial", .num 1),
   ("segments", .arr [.obj [("startIndex", .num 0), ("endIndex", .num 7)]])]

/-- Witness for the amended claim C1 at a concrete record. -/
theorem claim_C1_witness :
    goodSegments C1goodFields = true ∧
    is_annotation_complete (.obj C1goodFields) = .ok (claimComplete C1goodFields) :=
  ⟨rfl, claim_C1_segment_predicate C1goodFields rfl⟩

/-- Claim C6: the three textually identical copies of the completeness
predicate (server.py, viewer.py, download_videos.py) compute the same value
on every annotation input. -/
theorem claim_C6_three_copies_agree (ann : Json) :
    viewer_is_annotation_complete ann = is_annotation_complete ann ∧
    dlv_is_annotation_complete ann = is_annotation_complete ann :=
  ⟨rfl, rfl⟩

/-- Claim C8: when the six rating fields are all non-null and `segments` is
absent, null, or the empty list, the segment check is vacuous and
`is_annotation_complete` returns `True`. -/
theorem claim_C8_vacuous_segments (fields : List (String × Json))
    (hr : required_fields.all (fun f => isNotNone (jlookup fields f)) = true)
    (hs : jlookup fields "segments" = none ∨ jlookup fields "segments" = some .null ∨
      jlookup fields "segments" = some (.arr [])) :
    is_annotation_complete (.obj fields) = .ok true := by
  have hg : goodSegments fields = true := by
    rcases hs with h | h | h <;> simp [goodSegments, h, truthy]
  rw [complete_eval_good fields hg]
  have h2 : (specSegmentsList fields).all specSegOk = true := by
    rcases hs with h | h | h <;> simp [specSegmentsList, h]
  simp [claimComplete, hr, h2]

/-- A record with all six ratings filled and no segments key at all. -/
def C8fields : List (String × Json) :=
  [("overall", .num 4), ("camera", .num 4), ("subject", .num 4),
   ("motion", .num 4), ("scene", .num 4), ("spatial", .num 4)]

/-- Witness for claim C8 at a concrete record without a segments key. -/
theorem claim_C8_witness :
    required_fields.all (fun f => isNotNone (jlookup C8fields f)) = true ∧
    is_annotation_complete (.obj C8fields) = .ok true :=
  ⟨rfl, claim_C8_vacuous_segments C8fields rfl (Or.inl rfl)⟩

/-- The flat path `annotations/<dataset>/sample_<index>.json` used by both
`get_annotation` and `save_annotation` in caption_dataset_viewer/server.py. -/
def annotationFilePath (dataset_name : String) (sample_index : Int) : String :=
  "annotations/" ++ dataset_name ++ "/sample_" ++ toString sample_index ++ ".json"

/-- The local annotation store: one JSON document per path. -/
structure FileStore where
  files : List (String × Json)

/-- Reading a file: the stored document, if the path exists. -/
def readFile (fs : FileStore) (p : String) : Option Json :=
  (fs.files.find? (fun q => q.1 == p)).map (fun q => q.2)

/-- `open(path, 'w')` + `json.dump`: the path now holds exactly the new
document, whether or not it existed before. -/
def writeFile (fs : FileStore) (p : String) (content : Json) : FileStore :=
  ⟨(p, content) :: fs.files.filter (fun q => q.1 != p)⟩

/-- `get_annotation` (caption_dataset_viewer/server.py lines 243-249): load
the per-sample JSON file if it exists, else `None`. -/
def get_annotation_py (fs : FileStore) (dataset_name : String) (sample_index : Int) :
    Option Json :=
  readFile fs (annotationFilePath dataset_name sample_index)

/-- The success path of `save_annotation` (server.py lines 251-266): create
the dataset directory if needed (a no-op in this model) and dump the posted
object to the per-sample file. -/
def save_annotation_py (fs : FileStore) (dataset_name : String) (sample_index : Int)
    (ann : Json) : FileStore :=
  writeFile fs (annotationFilePath dataset_name sample_index) ann

/-- Claim C2: a POST creates or completely replaces the per-sample file, so a
subsequent `get_annotation` on the same dataset and index returns exactly the
most recently saved object, whatever the store previously held there. -/
theorem claim_C2_last_write_wins (fs : FileStore) (dataset_name : String)
    (sample_index : Int) (ann : Json) :
    get_annotation_py (save_annotation_py fs dataset_name sample_index ann)
      dataset_name sample_index = some ann := by
  simp only [get_annotation_py, save_annotation_py, readFile, writeFile]
  rw [List.find?_cons_of_pos _ (by simp)]
  rfl

/-- Python dict assignment `d[k] = v`: replace the binding in place if the
key exists, otherwise append it at the end. -/
def dictSet (fields : List (String × Json)) (k : String) (v : Json) :
    List (String × Json) :=
  match fields with
  | [] => [(k, v)]
  | (k', v') :: rest => if k' == k then (k, v) :: rest else (k', v') :: dictSet rest k v

/-- `save_annotation` from shotbench_viewer/server.py (lines 359-370): stamp
`annotation_data['sample_index'] = sample_index` and dump the object; the
item assignment raises `TypeError` on a non-dict body, which the broad
`except` turns into `False` with nothing written.  Returns the written
document (if any) and the success flag. -/
def sb_save_annotation_py (sample_index : Int) (ann : Json) : Option Json × Bool :=
  match ann with
  | .obj fields => (some (.obj (dictSet fields "sample_index" (.num sample_index))), true)
  | _ => (none, false)

theorem jlookup_dictSet (fields : List (String × Json)) (k : String) (v : Json) :
    jlookup (dictSet fields k v) k = some v := by
  induction fields with
  | nil => simp [dictSet, jlookup]
  | cons p rest ih =>
    obtain ⟨k', v'⟩ := p
    by_cases h : k' == k
    · simp [dictSet, h, jlookup]
    · simp only [dictSet, h, Bool.false_eq_true, if_false]
      simpa [jlookup, List.find?, h] using ih

/-- Claim C10: every annotation file the ShotBench server successfully
writes for sample index `i` carries a `sample_index` field equal to `i`,
whatever value the client posted under that key. -/
theorem claim_C10_sample_index_stamped (sample_index : Int) (ann w : Json)
    (h : (sb_save_annotation_py sample_index ann).1 = some w) :
    ∃ fields, w = Json.obj fields ∧
      jlookup fields "sample_index" = some (.num sample_index) := by
  cases ann with
  | obj fields =>
    refine ⟨dictSet fields "sample_index" (.num sample_index), ?_, ?_⟩
    · simpa [sb_save_annotation_py] using h.symm
    · exact jlookup_dictSet fields "sample_index" (.num sample_index)
  | null => exact absurd h (by simp [sb_save_annotation_py])
  | bool b => exact absurd h (by simp [sb_save_annotation_py])
  | num n => exact absurd h (by simp [sb_save_annotation_py])
  | str s => exact absurd h (by simp [sb_save_annotation_py])
  | arr elems => exact absurd h (by simp [sb_save_annotation_py])

/-- Witness for claim C10: a client body that itself posts a bogus
`sample_index` is overwritten with the URL index 3. -/
theorem claim_C10_witness :
    ∃ fields,
      Json.obj (dictSet [("sample_index", Json.str "client"), ("mistake", Json.null)]
        "sample_index" (Json.num 3)) = Json.obj fields ∧
      jlookup fields "sample_index" = some (Json.num 3) :=
  claim_C10_sample_index_stamped 3
    (Json.obj [("sample_index", Json.str "client"), ("mistake", Json.null)])
    (Json.obj (dictSet [("sample_index", Json.str "client"), ("mistake", Json.null)]
      "sample_index" (Json.num 3))) rfl


/-- Splitting a character list at every occurrence of a separator, keeping
empty pieces, as Python `str.split(sep)` and `str.splitOn` do:
`"../0".split("/") = ["..", "0"]`, `"".split("/") = [""]`. -/
def splitOnSep (sep : Char) : List Char → List (List Char)
  | [] => [[]]
  | c :: rest =>
    if c == sep then [] :: splitOnSep sep rest
    else
      match splitOnSep sep rest with
      | h :: t => (c :: h) :: t
      | [] => [[c]]

/-- The dataset name the handlers use:
`unquote(self.path.split("/api/annotation/")[1]).split("/")[0]`.  Decoding
happens before the split, so a percent-encoded dot sequence lands in the
component.  The argument here is the already-decoded remainder of the URL
after the route, and the dataset is its first slash-separated part. -/
def datasetOf (decodedRest : String) : String :=
  String.mk ((splitOnSep '/' decodedRest.toList).headD [])

/-- pathlib joining `Path('annotations') / dataset / fname`: each argument is
one component (a dataset cannot contain a slash, being a split part), and
PurePath drops empty and single-dot components. -/
def pathJoin (comps : List String) : List String :=
  comps.filter (fun c => c != "" && c != ".")

/-- Resolution of a relative path against the working directory: a `..`
component pops the previous component, or escapes one level above the working
directory when none is left.  Result: levels escaped above the working
directory, and the remaining components. -/
def resolveComps (comps : List String) : Nat × List String :=
  comps.foldl
    (fun acc c =>
      if c == ".." then
        match acc.2 with
        | [] => (acc.1 + 1, [])
        | _ => (acc.1, acc.2.dropLast)
      else (acc.1, acc.2 ++ [c]))
    (0, [])

/-- The file the GET and POST `/api/annotation/<dataset>/<index>` handlers
read or write: `ANNOTATIONS_DIR / dataset_name / f"sample_{sample_index}.json"`. -/
def annotationFileComps (dataset_name : String) (sample_index : Int) : List String :=
  pathJoin ["annotations", dataset_name, "sample_" ++ toString sample_index ++ ".json"]

/-- A relative path lies inside the configured annotations directory when it
resolves below `annotations` without escaping the working directory. -/
def insideAnnotationsDir (comps : List String) : Bool :=
  (resolveComps comps).1 == 0 && (resolveComps comps).2.headD "" == "annotations"

/-- Claim C4 counterexample: the request path `/api/annotation/%2E%2E/0`
decodes to `../0`, its dataset component is `..`, and the file the handlers
then touch resolves to `sample_0.json` in the parent of the annotations
directory: outside it. -/
theorem claim_C4_counterexample :
    datasetOf "../0" = ".." ∧
    insideAnnotationsDir (annotationFileComps (datasetOf "../0") 0) = false ∧
    (resolveComps (annotationFileComps (datasetOf "../0") 0)).2 = ["sample_0.json"] := by
  refine ⟨by decide, by decide, by decide⟩

theorem sampleName_ne (sample_index : Int) (t : String) (ht : t.length ≤ 2) :
    ("sample_" ++ toString sample_index ++ ".json" == t) = false := by
  rw [beq_eq_false_iff_ne]
  intro h
  have hl := congrArg String.length h
  rw [String.length_append, String.length_append] at hl
  have h5 : (".json" : String).length = 5 := by decide
  have h7 : ("sample_" : String).length = 7 := by decide
  omega

theorem inside_aux (d f : String) (hd : (d == "..") = false) (hf1 : (f == "..") = false)
    (hf2 : (f == ".") = false) (hf3 : (f == "") = false) :
    insideAnnotationsDir (pathJoin ["annotations", d, f]) = true := by
  have hfk : (f != "" && f != ".") = true := by
    rw [bne, bne, hf2, hf3]
    rfl
  by_cases h0 : (d == "") = true
  · have : d = "" := by simpa using h0
    subst this
    simp only [pathJoin, List.filter]
    rw [hfk]
    simp [insideAnnotationsDir, resolveComps, List.foldl, hf1]
  · by_cases h1 : (d == ".") = true
    · have : d = "." := by simpa using h1
      subst this
      simp only [pathJoin, List.filter]
      rw [hfk]
      simp [insideAnnotationsDir, resolveComps, List.foldl, hf1]
    · simp only [Bool.not_eq_true] at h0 h1
      have hdk : (d != "" && d != ".") = true := by
        rw [bne, bne, h0, h1]
        rfl
      simp only [pathJoin, List.filter]
      rw [hfk, hdk]
      simp [insideAnnotationsDir, resolveComps, List.foldl, hf1, hd]

/-- Claim C4 (amended): for every URL-decoded request remainder whose dataset
component is not `..`, the file the handlers touch does lie inside the
annotations directory.  The `..` dataset (reachable because `unquote` runs
before the split) is the only escape: a dataset part contains no slash, and
the `sample_<i>.json` leaf is never a traversal component. -/
theorem claim_C4_inside_unless_dotdot (decodedRest : String) (sample_index : Int)
    (h : datasetOf decodedRest ≠ "..") :
    insideAnnotationsDir (annotationFileComps (datasetOf decodedRest) sample_index) = true := by
  exact inside_aux (datasetOf decodedRest) _ (beq_eq_false_iff_ne.mpr h)
    (sampleName_ne sample_index ".." (by decide))
    (sampleName_ne sample_index "." (by decide))
    (sampleName_ne sample_index "" (by decide))

/-- Witness for the amended claim C4 at the decoded remainder `mydata/3`. -/
theorem claim_C4_witness :
    datasetOf "mydata/3" ≠ ".." ∧
    insideAnnotationsDir (annotationFileComps (datasetOf "mydata/3") 3) = true :=
  ⟨by decide, claim_C4_inside_unless_dotdot "mydata/3" 3 (by decide)⟩

/-- Python `str.strip()` on the character list: drop whitespace from both
ends (the ASCII whitespace relevant to these strings). -/
def pyStrip (cs : List Char) : List Char :=
  ((cs.dropWhile Char.isWhitespace).reverse.dropWhile Char.isWhitespace).reverse

/-- Python `str.lower()`. -/
def pyLower (cs : List Char) : List Char :=
  cs.map Char.toLower

/-- Python `str.capitalize()`: first character uppercased, the rest
lowercased. -/
def pyCapitalize : List Char → List Char
  | [] => []
  | c :: rest => c.toUpper :: rest.map Char.toLower

/-- Python `hay.find(needle)` as an option: index of the first occurrence. -/
def firstOccur (needle : List Char) : List Char → Option Nat
  | [] => if needle.isEmpty then some 0 else none
  | c :: rest =>
    if needle.isPrefixOf (c :: rest) then some 0
    else (firstOccur needle rest).map (fun i => i + 1)

/-- The marker `"Rationale:"` searched for in the model response. -/
def rationaleMarker : List Char := "Rationale:".toList

/-- The marker `"Classification:"` searched for in the model response. -/
def classificationMarker : List Char := "Classification:".toList

/-- The branch of `classify_feedback_introduces_wrong_terminology` taken when
both markers are found (camera_angle_order_swap_detection.py lines 756-769):
rationale is the stripped text between the markers, and the label is the
first line after `Classification:`, stripped, with dots and commas removed,
stripped again. -/
def classifyMarkers (raw : List Char) (ri ci : Nat) : List Char × List Char :=
  let rationale_start := ri + rationaleMarker.length
  let rationale := pyStrip ((raw.drop rationale_start).take (ci - rationale_start))
  let classification_text := pyStrip (raw.drop (ci + classificationMarker.length))
  let firstLine := pyStrip (classification_text.takeWhile (fun c => c != '\n'))
  (pyStrip ((firstLine.filter (fun c => c != '.')).filter (fun c => c != ',')), rationale)

/-- The fallback branch taken when the markers are not both found (lines
770-787): search for `classification: yes`/`classification: no` in the
lowercased response, test the whole stripped response against `yes`/`no`,
then scan the lines for a bare `yes`/`no`; otherwise the label stays empty
(and fails validation). -/
def classifyFallback (raw : List Char) : List Char × List Char :=
  if (firstOccur ("classification: yes".toList) (pyLower raw)).isSome
      || pyLower (pyStrip raw) == "yes".toList then
    ("Yes".toList, raw)
  else if (firstOccur ("classification: no".toList) (pyLower raw)).isSome
      || pyLower (pyStrip raw) == "no".toList then
    ("No".toList, raw)
  else
    match ((splitOnSep '\n' raw).map (fun l => pyLower (pyStrip l))).find?
        (fun lc => lc == "yes".toList || lc == "no".toList) with
    | some lc => (pyCapitalize lc, raw)
    | none => ([], [])

/-- The final validation (lines 789-792): a label other than `Yes`/`No`
becomes `Unexpected` with a `Could not parse` rationale. -/
def classifyValidate (pair : List Char × List Char) (raw : List Char) :
    List Char × List Char :=
  if pair.1 == "Yes".toList || pair.1 == "No".toList then pair
  else ("Unexpected".toList, "Could not parse: ".toList ++ raw.take 200)

/-- The response-parsing part of `classify_feedback_introduces_wrong_terminology`
(camera_angle_order_swap_detection.py lines 742-795): strip the generated
response, look for the two markers with `str.find`, dispatch to the marker or
fallback branch, and validate the label. -/
def classifyParse (response : List Char) : List Char × List Char :=
  let raw := pyStrip response
  classifyValidate
    (match firstOccur rationaleMarker raw, firstOccur classificationMarker raw with
     | some ri, some ci => classifyMarkers raw ri ci
     | _, _ => classifyFallback raw)
    raw

/-- The `(label, rationale, raw_response)` triple the function returns once
`llm.generate` has produced the string `response`. -/
def classify_feedback_parse (response : String) : String × String × String :=
  (String.mk (classifyParse response.toList).1,
   String.mk (classifyParse response.toList).2,
   String.mk (pyStrip response.toList))

/-- Whether the two markers are both found by `str.find` in the stripped
response, as the code tests (`rationale_idx != -1 and classification_idx
!= -1`). -/
def markersFound (response : String) : Bool :=
  (firstOccur rationaleMarker (pyStrip response.toList)).isSome &&
  (firstOccur classificationMarker (pyStrip response.toList)).isSome

/-- Whether any of the fallback searches of the marker-less branch succeeds. -/
def fallbackHit (response : String) : Bool :=
  (firstOccur ("classification: yes".toList) (pyLower (pyStrip response.toList))).isSome ||
  pyLower (pyStrip (pyStrip response.toList)) == "yes".toList ||
  (firstOccur ("classification: no".toList) (pyLower (pyStrip response.toList))).isSome ||
  pyLower (pyStrip (pyStrip response.toList)) == "no".toList ||
  (((splitOnSep '\n' (pyStrip response.toList)).map (fun l => pyLower (pyStrip l))).find?
      (fun lc => lc == "yes".toList || lc == "no".toList)).isSome

theorem classifyFallback_miss (raw : List Char)
    (h1 : (firstOccur ("classification: yes".toList) (pyLower raw)).isSome = false)
    (h2 : (pyLower (pyStrip raw) == "yes".toList) = false)
    (h3 : (firstOccur ("classification: no".toList) (pyLower raw)).isSome = false)
    (h4 : (pyLower (pyStrip raw) == "no".toList) = false)
    (h5 : ((splitOnSep '\n' raw).map (fun l => pyLower (pyStrip l))).find?
        (fun lc => lc == "yes".toList || lc == "no".toList) = none) :
    classifyFallback raw = ([], []) := by
  unfold classifyFallback
  rw [h1, h2, h3, h4, h5]
  rfl

/-- Claim C3 counterexample: the response `yes` contains neither marker, yet
the fallback classifies it as `Yes`, not `Unexpected`. -/
theorem claim_C3_counterexample :
    markersFound "yes" = false ∧ (classify_feedback_parse "yes").1 = "Yes" :=
  ⟨by decide, by decide⟩

/-- Claim C3 (amended): when the two markers are not both found AND none of
the code's fallback searches succeeds, the label is `Unexpected`; the
fallback can, however, still answer `Yes`/`No` on marker-less responses such
as a bare `yes`. -/
theorem claim_C3_unexpected_on_parse_failure (response : String)
    (hm : markersFound response = false) (hf : fallbackHit response = false) :
    (classify_feedback_parse response).1 = "Unexpected" := by
  simp only [markersFound, Bool.and_eq_false_iff] at hm
  simp only [fallbackHit, Bool.or_eq_false_iff] at hf
  obtain ⟨⟨⟨⟨hf1, hf2⟩, hf3⟩, hf4⟩, hf5⟩ := hf
  rw [Bool.eq_false_iff, Ne, Option.isSome_iff_exists] at hf5
  push_neg at hf5
  have hf5n : ((splitOnSep '\n' (pyStrip response.toList)).map (fun l => pyLower (pyStrip l))).find?
      (fun lc => lc == "yes".toList || lc == "no".toList) = none := by
    cases hx : ((splitOnSep '\n' (pyStrip response.toList)).map (fun l => pyLower (pyStrip l))).find?
        (fun lc => lc == "yes".toList || lc == "no".toList) with
    | none => rfl
    | some lc => exact absurd hx (hf5 lc)
  have hfb := classifyFallback_miss (pyStrip response.toList) hf1 hf2 hf3 hf4 hf5n
  simp only [classify_feedback_parse, classifyParse]
  cases hr : firstOccur rationaleMarker (pyStrip response.toList) with
  | some ri =>
    cases hc : firstOccur classificationMarker (pyStrip response.toList) with
    | some ci =>
      rcases hm with h | h
      · rw [hr] at h
        simp at h
      · rw [hc] at h
        simp at h
    | none =>
      rw [hfb]
      rfl
  | none =>
    cases hc : firstOccur classificationMarker (pyStrip response.toList) with
    | some ci =>
      rw [hfb]
      rfl
    | none =>
      rw [hfb]
      rfl

/-- Witness for the amended claim C3: a response matching neither the markers
nor any fallback is labelled `Unexpected`. -/
theorem claim_C3_witness :
    markersFound "total gibberish" = false ∧ fallbackHit "total gibberish" = false ∧
    (classify_feedback_parse "total gibberish").1 = "Unexpected" :=
  ⟨by decide, by decide,
    claim_C3_unexpected_on_parse_failure "total gibberish" (by decide) (by decide)⟩

/-- Modelled from the spec: the `llm` module (imported as `from llm import
get_llm`) is not under src/; its sibling implementation
(merged_caption_api.py lines 122-141) raises `ValueError` on an unknown model
name or a missing API key.  The outcome of the `get_llm(model, secrets)` call
is therefore an oracle: either an exception or a usable client. -/
inductive GetLlmOutcome where
  | raised (msg : String) : GetLlmOutcome
  | client : GetLlmOutcome

/-- Outcome of `llm.generate(prompt)` as the classify function observes it:
an exception (caught by the inner handler), a non-string return value (whose
`.strip()` raises and is caught by the outer handler), or a response
string. -/
inductive GenResult where
  | raisedExn (msg : String) : GenResult
  | nonString (msg : String) : GenResult
  | text (s : String) : GenResult

/-- `classify_feedback_introduces_wrong_terminology` in full
(camera_angle_order_swap_detection.py lines 709-797): `get_llm` is called
BEFORE the `try` block, so a failure there propagates to the caller; an
exception from `llm.generate` is caught by the inner handler and labelled
`Unexpected`; an exception in the later string handling is caught by the
outer handler and labelled `Unexpected`; otherwise the response is parsed. -/
def classify_feedback_run (llmOutcome : GetLlmOutcome) (gen : GenResult) :
    Except String (String × String × String) :=
  match llmOutcome with
  | .raised msg => .error msg
  | .client =>
    match gen with
    | .raisedExn msg => .ok ("Unexpected", "LLM Error: " ++ msg, msg)
    | .nonString msg => .ok ("Unexpected", "Error: " ++ msg, msg)
    | .text s => .ok (classify_feedback_parse s)

/-- The grouping loop of `get_datasets` (caption_dataset_viewer/server.py
lines 160-172): keep files ending in `.json` that contain a slash, group them
by their first path component in first-seen order. -/
def addFileTo (ds : List (String × List String)) (name file : String) :
    List (String × List String) :=
  match ds with
  | [] => [(name, [file])]
  | (n, fs) :: rest =>
    if n == name then (n, fs ++ [file]) :: rest else (n, fs) :: addFileTo rest name file

/-- The body of `get_datasets` over a successful repo listing. -/
def buildDatasets (files : List String) : List (String × List String) :=
  files.foldl
    (fun ds file =>
      if ".json".toList.isSuffixOf file.toList && file.toList.contains '/' then
        addFileTo ds (String.mk ((splitOnSep '/' file.toList).headD [])) file
      else ds)
    []

/-- `get_datasets` (server.py lines 155-178): the whole body sits in a
`try`; any exception from `list_repo_files` is caught, printed, and turned
into the empty list. -/
def get_datasets_py (listing : Except String (List String)) : List (String × List String) :=
  match listing with
  | .error _ => []
  | .ok files => buildDatasets files

/-- `save_annotation` including its exception handler (server.py lines
251-266): any exception while creating the directory or writing is caught
and turned into `False`; on success the store holds the new document and the
function returns `True`. -/
def save_annotation_try (fs : FileStore) (writeErr : Option String)
    (dataset_name : String) (sample_index : Int) (ann : Json) : FileStore × Bool :=
  match writeErr with
  | some _ => (fs, false)
  | none => (save_annotation_py fs dataset_name sample_index ann, true)

/-- Claim C5 counterexample: when `get_llm` raises (it is called before the
`try` block), `classify_feedback_introduces_wrong_terminology` propagates the
exception to its caller instead of returning `Unexpected`. -/
theorem claim_C5_counterexample :
    classify_feedback_run (.raised "ValueError: Invalid model bad-model")
        (.text "Classification: Yes")
      = .error "ValueError: Invalid model bad-model" := rfl

/-- Claim C5 (amended): the caught paths behave as claimed: a listing failure
makes `get_datasets` return the empty list, a write failure makes
`save_annotation` return `False` without touching the store, and an exception
from `llm.generate` or from the post-generation handling makes the classify
function return the label `Unexpected`; only a `get_llm` failure, raised
before the `try` block, escapes to the caller. -/
theorem claim_C5_defaults_on_caught_errors (e msg1 msg2 werr : String)
    (fs : FileStore) (dataset_name : String) (sample_index : Int) (ann : Json) :
    get_datasets_py (.error e) = [] ∧
    save_annotation_try fs (some werr) dataset_name sample_index ann = (fs, false) ∧
    classify_feedback_run .client (.raisedExn msg1)
      = .ok ("Unexpected", "LLM Error: " ++ msg1, msg1) ∧
    classify_feedback_run .client (.nonString msg2)
      = .ok ("Unexpected", "Error: " ++ msg2, msg2) :=
  ⟨rfl, rfl, rfl, rfl⟩

/-- `classify_sample_worker` (camera_angle_order_swap_detection.py lines
800-812) on the success path of the classifier: run the classifier on the
sample's fields (the generated response for a sample is the oracle
`respond`) and store label, rationale and raw response back into the sample
dict. -/
def classify_sample_worker (respond : List (String × Json) → String)
    (sample : List (String × Json)) : List (String × Json) :=
  dictSet
    (dictSet
      (dictSet sample "label" (.str (classify_feedback_parse (respond sample)).1))
      "rationale" (.str (classify_feedback_parse (respond sample)).2.1))
    "raw_response" (.str (classify_feedback_parse (respond sample)).2.2)

/-- One completed future being folded in (main, lines 1502-1508):
`future_to_index` maps the future back to its submission index `idx`, the
worker ran on the sample originally at slot `idx`, and the loop stores the
result at slot `idx` (`samples[idx] = result`). -/
def applyCompleted (samples0 : List α) (worker : α → α) (cur : List α) (idx : Nat) :
    List α :=
  match samples0[idx]? with
  | some s => cur.set idx (worker s)
  | none => cur

/-- The `ThreadPoolExecutor`/`as_completed` loop (lines 1495-1519): every
future is submitted on the original samples list, and results are written
back one slot each, in completion order `order`. -/
def runParallelLoop (samples : List α) (worker : α → α) (order : List Nat) : List α :=
  order.foldl (applyCompleted samples worker) samples

theorem applyCompleted_length (samples0 : List α) (worker : α → α) (cur : List α)
    (idx : Nat) : (applyCompleted samples0 worker cur idx).length = cur.length := by
  unfold applyCompleted
  cases samples0[idx]? <;> simp

theorem parloop_get (samples : List α) (worker : α → α) :
    ∀ (order : List Nat) (cur : List α), cur.length = samples.length → ∀ i : Nat,
      (order.foldl (applyCompleted samples worker) cur)[i]? =
        if i ∈ order ∧ i < samples.length then samples[i]?.map worker else cur[i]? := by
  intro order
  induction order with
  | nil =>
    intro cur hlen i
    simp
  | cons idx rest ih =>
    intro cur hlen i
    rw [List.foldl_cons]
    have hlen2 : (applyCompleted samples worker cur idx).length = samples.length := by
      rw [applyCompleted_length, hlen]
    rw [ih (applyCompleted samples worker cur idx) hlen2 i]
    by_cases hrest : i ∈ rest ∧ i < samples.length
    · rw [if_pos hrest, if_pos ⟨List.mem_cons_of_mem idx hrest.1, hrest.2⟩]
    · rw [if_neg hrest]
      unfold applyCompleted
      cases hidx : samples[idx]? with
      | none =>
        have hout : ¬ idx < samples.length := by
          intro hlt
          rw [List.getElem?_eq_getElem hlt] at hidx
          exact Option.noConfusion hidx
        by_cases hcond : i ∈ idx :: rest ∧ i < samples.length
        · rcases List.mem_cons.1 hcond.1 with rfl | hmem
          · exact absurd hcond.2 hout
          · exact absurd ⟨hmem, hcond.2⟩ hrest
        · rw [if_neg hcond]
      | some s =>
        have hin : idx < samples.length := by
          by_contra hge
          rw [List.getElem?_eq_none (Nat.le_of_not_lt hge)] at hidx
          exact Option.noConfusion hidx
        by_cases hie : i = idx
        · subst hie
          rw [if_pos ⟨List.mem_cons_self i rest, hin⟩, hidx,
            List.getElem?_set_eq_of_lt (worker s) (hlen ▸ hin)]
          rfl
        · have hcond : ¬(i ∈ idx :: rest ∧ i < samples.length) := by
            rintro ⟨hmem, hlt⟩
            rcases List.mem_cons.1 hmem with h | hm
            · exact hie h
            · exact hrest ⟨hm, hlt⟩
          rw [if_neg hcond, List.getElem?_set_ne (fun h => hie h.symm)]

theorem runParallelLoop_eq_map (samples : List α) (worker : α → α) (order : List Nat)
    (hperm : order.Perm (List.range samples.length)) :
    runParallelLoop samples worker order = samples.map worker := by
  apply List.ext_getElem?
  intro i
  rw [runParallelLoop, parloop_get samples worker order samples rfl i, List.getElem?_map]
  by_cases hi : i < samples.length
  · rw [if_pos ⟨hperm.mem_iff.2 (List.mem_range.2 hi), hi⟩]
  · rw [if_neg (fun h => hi h.2), List.getElem?_eq_none (Nat.le_of_not_lt hi)]
    rfl

/-- Claim C7: whatever the completion order of the futures (any permutation
of the submission indices), the as_completed loop leaves the samples list
equal to the sequential map of `classify_sample_worker` over the original
list: each slot `idx` holds the classification of the sample originally at
`idx`. -/
theorem claim_C7_parallel_loop_is_map (samples : List (List (String × Json)))
    (respond : List (String × Json) → String) (order : List Nat)
    (hperm : order.Perm (List.range samples.length)) :
    runParallelLoop samples (classify_sample_worker respond) order =
      samples.map (classify_sample_worker respond) :=
  runParallelLoop_eq_map samples (classify_sample_worker respond) order hperm

/-- Witness for claim C7: two samples completing in reversed order still end
up with the sequential-map result. -/
theorem claim_C7_witness :
    runParallelLoop [[("final_feedback", Json.str "a")], [("final_feedback", Json.str "b")]]
        (classify_sample_worker (fun _ => "yes")) [1, 0] =
      [[("final_feedback", Json.str "a")], [("final_feedback", Json.str "b")]].map
        (classify_sample_worker (fun _ => "yes")) :=
  claim_C7_parallel_loop_is_map
    [[("final_feedback", Json.str "a")], [("final_feedback", Json.str "b")]]
    (fun _ => "yes") [1, 0] (by decide)

/-- Python `str.split()` with no arguments: split on whitespace runs,
discarding empty pieces.  `cur` is the current word, reversed. -/
def splitWsAux (cur : List Char) : List Char → List (List Char)
  | [] => if cur.isEmpty then [] else [cur.reverse]
  | c :: rest =>
    if c.isWhitespace then
      if cur.isEmpty then splitWsAux [] rest
      else cur.reverse :: splitWsAux [] rest
    else splitWsAux (c :: cur) rest

/-- `pre_caption.split()` as a list of words. -/
def pySplitWs (s : String) : List String :=
  (splitWsAux [] s.toList).map String.mk

/-- The ascending list of positions at which `v` occurs in the word list,
offset by `idx` (used to characterise difflib's `b2j`). -/
def occAux (v : String) (idx : Nat) : List String → List Nat
  | [] => []
  | x :: rest => if x == v then idx :: occAux v (idx + 1) rest else occAux v (idx + 1) rest

/-- `b2j.setdefault(elt, []).append(i)` from `SequenceMatcher.__chain_b`. -/
def addIdx (m : List (String × List Nat)) (v : String) (j : Nat) :
    List (String × List Nat) :=
  match m with
  | [] => [(v, [j])]
  | (w, js) :: rest =>
    if w == v then (w, js ++ [j]) :: rest else (w, js) :: addIdx rest v j

/-- The enumeration loop of `__chain_b` building `b2j`. -/
def buildB2jAux (j : Nat) (m : List (String × List Nat)) :
    List String → List (String × List Nat)
  | [] => m
  | x :: rest => buildB2jAux (j + 1) (addIdx m x j) rest

/-- `b2j` before the popularity purge: every word of `b` mapped to its
ascending occurrence list. -/
def buildB2j (b : List String) : List (String × List Nat) :=
  buildB2jAux 0 [] b

/-- `b2j.get(v, [])`. -/
def b2jGet (m : List (String × List Nat)) (v : String) : List Nat :=
  ((m.find? (fun p => p.1 == v)).map (fun p => p.2)).getD []

/-- `__chain_b` with `isjunk=None` and `autojunk=True` as `count_text_changes`
constructs it (`difflib.SequenceMatcher(None, a, b)`): there is no junk set,
and when `len(b) >= 200` the entries of elements occurring more than
`n // 100 + 1` times are deleted (the "popular" purge). -/
def mkB2j (b : List String) : List (String × List Nat) :=
  if 200 ≤ b.length then
    (buildB2j b).filter (fun p => !(b.length / 100 + 1 < p.2.length))
  else buildB2j b

/-- `self.bjunk.__contains__`: with `isjunk=None` the junk set is empty, so
nothing is junk (popular elements are tracked separately and are NOT in
`bjunk`). -/
def isbjunk (v : String) : Bool :=
  ((([] : List String)).contains v)

/-- The running best match of `find_longest_match`. -/
structure Best where
  besti : Nat
  bestj : Nat
  bestsize : Nat
deriving DecidableEq, Repr

/-- `j2len.get(j, 0)` on the per-row dict. -/
def lookupD (m : List (Nat × Nat)) (j : Nat) : Nat :=
  ((m.find? (fun p => p.1 == j)).map (fun p => p.2)).getD 0

/-- `k = newj2len[j] = j2len.get(j-1, 0) + 1` (for `j = 0` Python reads
`j2len.get(-1, 0) = 0`). -/
def chainLen (j2len : List (Nat × Nat)) (j : Nat) : Nat :=
  (if j = 0 then 0 else lookupD j2len (j - 1)) + 1

/-- The inner loop of `find_longest_match` over the occurrence list of
`a[i]` (already restricted to `blo <= j < bhi` by the `continue`/`break`
pair on the ascending list): extend chains and update the strictly best
match. -/
def innerLoop (i : Nat) (j2len : List (Nat × Nat)) :
    List Nat → List (Nat × Nat) → Best → List (Nat × Nat) × Best
  | [], cur, best => (cur, best)
  | j :: js, cur, best =>
    innerLoop i j2len js ((j, chainLen j2len j) :: cur)
      (if best.bestsize < chainLen j2len j then
        ⟨i + 1 - chainLen j2len j, j + 1 - chainLen j2len j, chainLen j2len j⟩
       else best)

/-- The outer loop of `find_longest_match` over `i in range(alo, ahi)`. -/
def dpLoop (a : List String) (b2j : List (String × List Nat)) (blo bhi : Nat) :
    List Nat → List (Nat × Nat) → Best → Best
  | [], _, best => best
  | i :: is, j2len, best =>
    let js := (b2jGet b2j (a.getD i "")).filter
      (fun j => decide (blo ≤ j) && decide (j < bhi))
    dpLoop a b2j blo bhi is (innerLoop i j2len js [] best).1 (innerLoop i j2len js [] best).2

/-- First extension loop: extend backwards over equal non-junk elements
(the guard `besti > alo` is vacuously false at `besti = 0`, so the loop
recurses structurally on `besti`). -/
def extendBackNonjunk (a b : List String) (alo blo : Nat) :
    Nat → Nat → Nat → Best
  | 0, bestj, bestsize => ⟨0, bestj, bestsize⟩
  | besti + 1, bestj, bestsize =>
    if alo < besti + 1 ∧ blo < bestj ∧ isbjunk (b.getD (bestj - 1) "") = false ∧
        a.getD besti "" = b.getD (bestj - 1) "" then
      extendBackNonjunk a b alo blo besti (bestj - 1) (bestsize + 1)
    else ⟨besti + 1, bestj, bestsize⟩

/-- Second extension loop: extend forwards over equal non-junk elements;
only the size grows.  `rem` is the distance `ahi - (besti + bestsize)`
still available; at `rem = 0` the guard `besti + bestsize < ahi` is false. -/
def extendFwdNonjunk (a b : List String) (ahi bhi besti bestj : Nat) :
    Nat → Nat → Nat
  | 0, bestsize => bestsize
  | rem + 1, bestsize =>
    if besti + bestsize < ahi ∧ bestj + bestsize < bhi ∧
        isbjunk (b.getD (bestj + bestsize) "") = false ∧
        a.getD (besti + bestsize) "" = b.getD (bestj + bestsize) "" then
      extendFwdNonjunk a b ahi bhi besti bestj rem (bestsize + 1)
    else bestsize

/-- Third extension loop: extend backwards over equal junk elements (never
fires here, the junk set being empty; embedded for fidelity). -/
def extendBackJunk (a b : List String) (alo blo : Nat) :
    Nat → Nat → Nat → Best
  | 0, bestj, bestsize => ⟨0, bestj, bestsize⟩
  | besti + 1, bestj, bestsize =>
    if alo < besti + 1 ∧ blo < bestj ∧ isbjunk (b.getD (bestj - 1) "") = true ∧
        a.getD besti "" = b.getD (bestj - 1) "" then
      extendBackJunk a b alo blo besti (bestj - 1) (bestsize + 1)
    else ⟨besti + 1, bestj, bestsize⟩

/-- Fourth extension loop: extend forwards over equal junk elements (never
fires here). -/
def extendFwdJunk (a b : List String) (ahi bhi besti bestj : Nat) :
    Nat → Nat → Nat
  | 0, bestsize => bestsize
  | rem + 1, bestsize =>
    if besti + bestsize < ahi ∧ bestj + bestsize < bhi ∧
        isbjunk (b.getD (bestj + bestsize) "") = true ∧
        a.getD (besti + bestsize) "" = b.getD (bestj + bestsize) "" then
      extendFwdJunk a b ahi bhi besti bestj rem (bestsize + 1)
    else bestsize

/-- `SequenceMatcher.find_longest_match(alo, ahi, blo, bhi)`: the chain DP
followed by the four extension loops. -/
def find_longest_match (a b : List String) (b2j : List (String × List Nat))
    (alo ahi blo bhi : Nat) : Best :=
  let best := dpLoop a b2j blo bhi (List.range' alo (ahi - alo)) [] ⟨alo, blo, 0⟩
  let b1 := extendBackNonjunk a b alo blo best.besti best.bestj best.bestsize
  let s1 := extendFwdNonjunk a b ahi bhi b1.besti b1.bestj
    (ahi - (b1.besti + b1.bestsize)) b1.bestsize
  let b2 := extendBackJunk a b alo blo b1.besti b1.bestj s1
  let s2 := extendFwdJunk a b ahi bhi b2.besti b2.bestj
    (ahi - (b2.besti + b2.bestsize)) b2.bestsize
  ⟨b2.besti, b2.bestj, s2⟩

/-- The recursive block collection of `get_matching_blocks`.  difflib keeps
an explicit work stack and sorts the collected list afterwards; collecting
in window order produces that same sorted list directly (the recursion
windows are disjoint and ordered), so the embedding recurses in order.  The
fuel only bounds the recursion depth and is never exhausted when called with
`la + lb + 1` (each level strictly shrinks the window sum). -/
def matchBlocksRec (a b : List String) (b2j : List (String × List Nat)) :
    Nat → Nat → Nat → Nat → Nat → List (Nat × Nat × Nat)
  | 0, _, _, _, _ => []
  | fuel + 1, alo, ahi, blo, bhi =>
    let m := find_longest_match a b b2j alo ahi blo bhi
    if m.bestsize = 0 then []
    else
      (if alo < m.besti ∧ blo < m.bestj then
        matchBlocksRec a b b2j fuel alo m.besti blo m.bestj
       else []) ++
      [(m.besti, m.bestj, m.bestsize)] ++
      (if m.besti + m.bestsize < ahi ∧ m.bestj + m.bestsize < bhi then
        matchBlocksRec a b b2j fuel (m.besti + m.bestsize) ahi (m.bestj + m.bestsize) bhi
       else [])

/-- The adjacent-block merge at the end of `get_matching_blocks`. -/
def mergeBlocksAux : Nat → Nat → Nat → List (Nat × Nat × Nat) → List (Nat × Nat × Nat)
  | i1, j1, k1, [] => if k1 ≠ 0 then [(i1, j1, k1)] else []
  | i1, j1, k1, (i2, j2, k2) :: rest =>
    if i1 + k1 = i2 ∧ j1 + k1 = j2 then mergeBlocksAux i1 j1 (k1 + k2) rest
    else (if k1 ≠ 0 then [(i1, j1, k1)] else []) ++ mergeBlocksAux i2 j2 k2 rest

/-- `SequenceMatcher.get_matching_blocks()`: collect, merge adjacent blocks,
and append the `(la, lb, 0)` sentinel. -/
def get_matching_blocks (a b : List String) : List (Nat × Nat × Nat) :=
  mergeBlocksAux 0 0 0
      (matchBlocksRec a b (mkB2j b) (a.length + b.length + 1) 0 a.length 0 b.length) ++
    [(a.length, b.length, 0)]

/-- The tags of `get_opcodes`. -/
inductive OpTag where
  | replace : OpTag
  | delete : OpTag
  | insert : OpTag
  | equal : OpTag
deriving DecidableEq, Repr

/-- One `(tag, i1, i2, j1, j2)` opcode. -/
structure Opcode where
  tag : OpTag
  i1 : Nat
  i2 : Nat
  j1 : Nat
  j2 : Nat
deriving DecidableEq, Repr

/-- The loop of `get_opcodes` over the matching blocks: emit a
replace/delete/insert opcode for the gap before each block and an equal
opcode for each nonempty block. -/
def opcodesAux : Nat → Nat → List (Nat × Nat × Nat) → List Opcode
  | _, _, [] => []
  | i, j, (ai, bj, size) :: rest =>
    (if i < ai ∧ j < bj then [⟨.replace, i, ai, j, bj⟩]
     else if i < ai then [⟨.delete, i, ai, j, bj⟩]
     else if j < bj then [⟨.insert, i, ai, j, bj⟩]
     else []) ++
      (if size ≠ 0 then [⟨.equal, ai, ai + size, bj, bj + size⟩] else []) ++
      opcodesAux (ai + size) (bj + size) rest

/-- `SequenceMatcher.get_opcodes()`. -/
def get_opcodes (a b : List String) : List Opcode :=
  opcodesAux 0 0 (get_matching_blocks a b)

/-- `count_text_changes` (camera_angle_order_swap_detection.py lines
616-631): split both captions into words, run `SequenceMatcher`, and sum
`max(i2 - i1, j2 - j1)` over the non-equal opcodes. -/
def count_text_changes (pre_caption final_caption : String) : Nat :=
  (get_opcodes (pySplitWs pre_caption) (pySplitWs final_caption)).foldl
    (fun changes op =>
      if op.tag = .replace ∨ op.tag = .delete ∨ op.tag = .insert then
        changes + max (op.i2 - op.i1) (op.j2 - op.j1)
      else changes) 0

example : count_text_changes "a b c" "a b c" = 0 := by decide
example : count_text_changes "the cat sat" "the dog sat" = 1 := by decide
example : count_text_changes "a b" "a b c d" = 2 := by decide
example : count_text_changes "" "" = 0 := by decide
example : count_text_changes "x" "" = 1 := by decide
example : count_text_changes "u v u v" "u v" = 2 := by decide
example : count_text_changes "a a a b" "b a a a" = 2 := by decide
example : count_text_changes "x y x y x" "y x y x y" = 2 := by decide
example : count_text_changes "p q r" "r q p" = 4 := by decide
example : count_text_changes "one two three four" "four three two one" = 6 := by decide
example : count_text_changes "a b a b a b" "b a b a b a" = 2 := by decide

theorem occAux_mem_sound (v : String) :
    ∀ (l : List String) (idx j : Nat), j ∈ occAux v idx l →
      idx ≤ j ∧ j < idx + l.length ∧ l.getD (j - idx) "" = v := by
  intro l
  induction l with
  | nil =>
    intro idx j h
    simp [occAux] at h
  | cons x rest ih =>
    intro idx j h
    simp only [occAux] at h
    by_cases hx : (x == v) = true
    · rw [if_pos hx] at h
      rcases List.mem_cons.1 h with h0 | h1
      · subst h0
        refine ⟨Nat.le_refl _, by simp, ?_⟩
        simp [List.getD]
        exact eq_of_beq hx
      · obtain ⟨h2, h3, h4⟩ := ih (idx + 1) j h1
        refine ⟨Nat.le_of_succ_le h2, by simp; omega, ?_⟩
        have : j - idx = (j - (idx + 1)) + 1 := by omega
        rw [this]
        simpa [List.getD] using h4
    · rw [if_neg hx] at h
      obtain ⟨h2, h3, h4⟩ := ih (idx + 1) j h
      refine ⟨Nat.le_of_succ_le h2, by simp; omega, ?_⟩
      have : j - idx = (j - (idx + 1)) + 1 := by omega
      rw [this]
      simpa [List.getD] using h4

theorem occAux_mem_complete (v : String) :
    ∀ (l : List String) (idx t : Nat), t < l.length → l.getD t "" = v →
      (idx + t) ∈ occAux v idx l := by
  intro l
  induction l with
  | nil =>
    intro idx t ht
    simp at ht
  | cons x rest ih =>
    intro idx t ht hv
    cases t with
    | zero =>
      simp only [List.getD] at hv
      simp at hv
      simp only [occAux, hv]
      simp
    | succ t2 =>
      have ht2 : t2 < rest.length := by simpa using ht
      have hv2 : rest.getD t2 "" = v := by simpa [List.getD] using hv
      have := ih (idx + 1) t2 ht2 hv2
      have harith : idx + (t2 + 1) = (idx + 1) + t2 := by omega
      rw [harith]
      simp only [occAux]
      by_cases hx : (x == v) = true
      · rw [if_pos hx]
        exact List.mem_cons_of_mem _ this
      · rw [if_neg hx]
        exact this

theorem occAux_sorted (v : String) :
    ∀ (l : List String) (idx : Nat), (occAux v idx l).Pairwise (· < ·) := by
  intro l
  induction l with
  | nil => intro idx; simp [occAux]
  | cons x rest ih =>
    intro idx
    simp only [occAux]
    by_cases hx : (x == v) = true
    · rw [if_pos hx]
      refine List.pairwise_cons.2 ⟨?_, ih (idx + 1)⟩
      intro j hj
      exact Nat.lt_of_lt_of_le (Nat.lt_succ_self idx) (occAux_mem_sound v rest (idx + 1) j hj).1
    · rw [if_neg hx]
      exact ih (idx + 1)

theorem b2jGet_addIdx (m : List (String × List Nat)) (x v : String) (j : Nat) :
    b2jGet (addIdx m x j) v = if x == v then b2jGet m v ++ [j] else b2jGet m v := by
  induction m with
  | nil =>
    by_cases hx : (x == v) = true
    · simp [addIdx, b2jGet, hx, List.find?]
    · simp [addIdx, b2jGet, hx, List.find?]
  | cons p rest ih =>
    obtain ⟨w, js⟩ := p
    by_cases hw : (w == x) = true
    · have hwx : w = x := eq_of_beq hw
      subst hwx
      by_cases hv : (w == v) = true
      · have : w = v := eq_of_beq hv
        subst this
        simp [addIdx, b2jGet, List.find?]
      · simp [addIdx, b2jGet, List.find?, hv]
    · by_cases hv : (w == v) = true
      · have hwv : w = v := eq_of_beq hv
        have hxv : (x == v) = false := by
          rw [beq_eq_false_iff_ne]
          intro h
          subst h
          subst hwv
          simp at hw
        simp [addIdx, hw, b2jGet, List.find?, hv, hxv]
      · simp only [addIdx, hw, Bool.false_eq_true, if_false]
        simp only [b2jGet, List.find?, hv]
        exact ih

theorem b2jGet_buildB2jAux :
    ∀ (l : List String) (j : Nat) (m : List (String × List Nat)) (v : String),
      b2jGet (buildB2jAux j m l) v = b2jGet m v ++ occAux v j l := by
  intro l
  induction l with
  | nil =>
    intro j m v
    simp [buildB2jAux, occAux]
  | cons x rest ih =>
    intro j m v
    simp only [buildB2jAux, occAux]
    rw [ih (j + 1) (addIdx m x j) v, b2jGet_addIdx]
    by_cases hx : (x == v) = true
    · rw [if_pos hx, if_pos hx]
      simp
    · rw [if_neg hx, if_neg hx]

theorem b2jGet_buildB2j (b : List String) (v : String) :
    b2jGet (buildB2j b) v = occAux v 0 b := by
  have := b2jGet_buildB2jAux b 0 [] v
  simpa [b2jGet, List.find?] using this

theorem addIdx_keys_mem (x : String) (j : Nat) :
    ∀ (m : List (String × List Nat)), x ∈ m.map Prod.fst →
      (addIdx m x j).map Prod.fst = m.map Prod.fst := by
  intro m
  induction m with
  | nil => intro h; simp at h
  | cons p rest ih =>
    intro h
    obtain ⟨w, js⟩ := p
    by_cases hw : (w == x) = true
    · simp [addIdx, hw]
    · have hx : x ∈ rest.map Prod.fst := by
        rcases List.mem_cons.1 h with h0 | h1
        · exact absurd (beq_iff_eq.2 h0.symm) (by simpa using hw)
        · exact h1
      simp [addIdx, hw, ih hx]

theorem addIdx_keys_new (x : String) (j : Nat) :
    ∀ (m : List (String × List Nat)), x ∉ m.map Prod.fst →
      (addIdx m x j).map Prod.fst = m.map Prod.fst ++ [x] := by
  intro m
  induction m with
  | nil => intro h; simp [addIdx]
  | cons p rest ih =>
    intro h
    obtain ⟨w, js⟩ := p
    have hw : (w == x) = false := by
      rw [beq_eq_false_iff_ne]
      intro he
      exact h (by simp [he])
    have hx : x ∉ rest.map Prod.fst := fun hm => h (by simp [hm])
    simp [addIdx, hw, ih hx]

theorem addIdx_keys_nodup (x : String) (j : Nat) (m : List (String × List Nat))
    (h : (m.map Prod.fst).Nodup) : ((addIdx m x j).map Prod.fst).Nodup := by
  by_cases hx : x ∈ m.map Prod.fst
  · rw [addIdx_keys_mem x j m hx]
    exact h
  · rw [addIdx_keys_new x j m hx]
    simp [List.nodup_append, h, hx]

theorem buildB2jAux_keys_nodup :
    ∀ (l : List String) (j : Nat) (m : List (String × List Nat)),
      (m.map Prod.fst).Nodup → ((buildB2jAux j m l).map Prod.fst).Nodup := by
  intro l
  induction l with
  | nil => intro j m h; exact h
  | cons x rest ih =>
    intro j m h
    exact ih (j + 1) (addIdx m x j) (addIdx_keys_nodup x j m h)

theorem buildB2j_keys_nodup (b : List String) :
    ((buildB2j b).map Prod.fst).Nodup :=
  buildB2jAux_keys_nodup b 0 [] (by simp)

theorem b2jGet_filter_keep (q : String × List Nat → Bool)
    (m : List (String × List Nat)) (hnd : (m.map Prod.fst).Nodup) (v : String) :
    b2jGet (m.filter q) v = b2jGet m v ∨ b2jGet (m.filter q) v = [] := by
  induction m with
  | nil => right; simp [b2jGet]
  | cons p rest ih =>
    obtain ⟨w, js⟩ := p
    have hnd2 : (rest.map Prod.fst).Nodup := (List.nodup_cons.1 hnd).2
    by_cases hq : q (w, js) = true
    · by_cases hv : (w == v) = true
      · left
        simp [List.filter, hq, b2jGet, List.find?, hv]
      · simp only [List.filter, hq]
        simp only [b2jGet, List.find?, hv]
        exact ih hnd2
    · by_cases hv : (w == v) = true
      · have hwv : w = v := eq_of_beq hv
        subst hwv
        have hnomem : ∀ p ∈ rest, ¬((fun p => p.1 == w) p = true) := by
          intro p hp hbe
          have : p.1 = w := eq_of_beq hbe
          have hwmem : w ∈ rest.map Prod.fst := by
            rw [List.mem_map]
            exact ⟨p, hp, this⟩
          exact (List.nodup_cons.1 hnd).1 hwmem
        right
        have hfind : (rest.filter q).find? (fun p => p.1 == w) = none :=
          List.find?_eq_none.mpr (fun p hp => hnomem p (List.mem_of_mem_filter hp))
        simp only [List.filter, hq, Bool.false_eq_true, if_false]
        simp [b2jGet, hfind]
      · simp only [List.filter, hq, Bool.false_eq_true, if_false]
        simp only [b2jGet, List.find?, hv]
        exact ih hnd2

theorem mkB2j_get (b : List String) (v : String) :
    b2jGet (mkB2j b) v = occAux v 0 b ∨ b2jGet (mkB2j b) v = [] := by
  unfold mkB2j
  by_cases h2 : 200 ≤ b.length
  · rw [if_pos h2]
    rcases b2jGet_filter_keep (fun p => !(b.length / 100 + 1 < p.2.length)) (buildB2j b)
      (buildB2j_keys_nodup b) v with h | h
    · left
      rw [h, b2jGet_buildB2j]
    · right
      exact h
  · rw [if_neg h2]
    left
    exact b2jGet_buildB2j b v

theorem b2jGet_sound (b : List String) (v : String) (j : Nat)
    (h : j ∈ b2jGet (mkB2j b) v) : j < b.length ∧ b.getD j "" = v := by
  rcases mkB2j_get b v with he | he
  · rw [he] at h
    obtain ⟨_, h2, h3⟩ := occAux_mem_sound v b 0 j h
    exact ⟨by simpa using h2, by simpa using h3⟩
  · rw [he] at h
    simp at h

theorem b2jGet_complete_of_mem (b : List String) (v : String) (j t : Nat)
    (h : j ∈ b2jGet (mkB2j b) v) (ht : t < b.length) (hv : b.getD t "" = v) :
    t ∈ b2jGet (mkB2j b) v := by
  rcases mkB2j_get b v with he | he
  · rw [he]
    simpa using occAux_mem_complete v b 0 t ht hv
  · rw [he] at h
    simp at h

theorem b2jGet_sorted (b : List String) (v : String) :
    (b2jGet (mkB2j b) v).Pairwise (· < ·) := by
  rcases mkB2j_get b v with he | he <;> rw [he]
  · exact occAux_sorted v b 0
  · simp

/-- `a[bi:bi+k] == b[bj:bj+k]`, elementwise. -/
def matchAt (a b : List String) (bi bj k : Nat) : Prop :=
  ∀ t, t < k → a.getD (bi + t) "" = b.getD (bj + t) ""

/-- The running best of `find_longest_match` stays inside the window and is a
genuine match. -/
def GoodBlock (a b : List String) (alo ahi blo bhi : Nat) (blk : Best) : Prop :=
  alo ≤ blk.besti ∧ blk.besti + blk.bestsize ≤ ahi ∧ blo ≤ blk.bestj ∧
    blk.bestj + blk.bestsize ≤ bhi ∧ matchAt a b blk.besti blk.bestj blk.bestsize

/-- Invariant of the previous row's `j2len` dict before processing row `r`:
every positive entry `k` at key `j` is a genuine chain of matches ending at
`(r - 1, j)` that starts inside the window. -/
def ChainInv (a b : List String) (alo blo bhi r : Nat) (mp : List (Nat × Nat)) : Prop :=
  ∀ j, 0 < lookupD mp j →
    alo + lookupD mp j ≤ r ∧ blo + lookupD mp j ≤ j + 1 ∧ j < bhi ∧
    ∀ t, t < lookupD mp j → a.getD (r - 1 - t) "" = b.getD (j - t) ""

theorem matchAt_of_rev (a b : List String) (r j k : Nat)
    (h : ∀ u, u < k → a.getD (r - u) "" = b.getD (j - u) "")
    (hk : k ≤ r + 1) (hj : k ≤ j + 1) :
    matchAt a b (r + 1 - k) (j + 1 - k) k := by
  intro t ht
  have h2 := h (k - 1 - t) (by omega)
  have e1 : r + 1 - k + t = r - (k - 1 - t) := by omega
  have e2 : j + 1 - k + t = j - (k - 1 - t) := by omega
  rw [e1, e2]
  exact h2

/-- The chain value computed at row `r`, column `j` is a genuine chain ending
at `(r, j)` within the window. -/
theorem chainNew (a b : List String) (alo blo bhi r : Nat) (mp : List (Nat × Nat))
    (hchain : ChainInv a b alo blo bhi r mp) (har : alo ≤ r)
    (j : Nat) (hjlo : blo ≤ j) (hjv : b.getD j "" = a.getD r "") :
    alo + chainLen mp j ≤ r + 1 ∧ blo + chainLen mp j ≤ j + 1 ∧
      ∀ u, u < chainLen mp j → a.getD (r - u) "" = b.getD (j - u) "" := by
  unfold chainLen
  by_cases hj0 : j = 0
  · subst hj0
    rw [if_pos rfl]
    refine ⟨by omega, by omega, ?_⟩
    intro u hu
    have : u = 0 := by omega
    subst this
    simpa using hjv.symm
  · rw [if_neg hj0]
    by_cases hz : 0 < lookupD mp (j - 1)
    · obtain ⟨hc1, hc2, _, hc4⟩ := hchain (j - 1) hz
      refine ⟨by omega, by omega, ?_⟩
      intro u hu
      cases u with
      | zero => simpa using hjv.symm
      | succ u2 =>
        have hu2 : u2 < lookupD mp (j - 1) := by omega
        have := hc4 u2 hu2
        have hr1 : 1 ≤ r := by omega
        have e1 : r - (u2 + 1) = r - 1 - u2 := by omega
        have e2 : j - (u2 + 1) = j - 1 - u2 := by omega
        rw [e1, e2]
        exact this
    · have hz0 : lookupD mp (j - 1) = 0 := by omega
      rw [hz0]
      refine ⟨by omega, by omega, ?_⟩
      intro u hu
      have : u = 0 := by omega
      subst this
      simpa using hjv.symm

theorem innerLoop_fst (i : Nat) (mp : List (Nat × Nat)) :
    ∀ (js : List Nat) (cur : List (Nat × Nat)) (best : Best) (q : Nat),
      lookupD (innerLoop i mp js cur best).1 q =
        if q ∈ js then chainLen mp q else lookupD cur q := by
  intro js
  induction js with
  | nil => intro cur best q; simp [innerLoop]
  | cons j rest ih =>
    intro cur best q
    simp only [innerLoop]
    rw [ih]
    by_cases hq : q ∈ rest
    · rw [if_pos hq, if_pos (List.mem_cons_of_mem _ hq)]
    · rw [if_neg hq]
      by_cases hqj : q = j
      · subst hqj
        rw [if_pos (List.mem_cons_self q rest)]
        simp [lookupD, List.find?]
      · have : ¬ q ∈ j :: rest := by
          intro h
          rcases List.mem_cons.1 h with h0 | h1
          · exact hqj h0
          · exact hq h1
        rw [if_neg this]
        simp only [lookupD, List.find?]
        have : (j == q) = false := by
          rw [beq_eq_false_iff_ne]
          exact fun h => hqj h.symm
        rw [this]

theorem innerLoop_good (a b : List String) (alo ahi blo bhi r : Nat)
    (mp : List (Nat × Nat)) (hchain : ChainInv a b alo blo bhi r mp)
    (har : alo ≤ r) (hrhi : r < ahi) :
    ∀ (js : List Nat) (cur : List (Nat × Nat)) (best : Best),
      (∀ j ∈ js, blo ≤ j ∧ j < bhi ∧ b.getD j "" = a.getD r "") →
      GoodBlock a b alo ahi blo bhi best →
      GoodBlock a b alo ahi blo bhi (innerLoop r mp js cur best).2 := by
  intro js
  induction js with
  | nil => intro cur best hmem hgood; exact hgood
  | cons j rest ih =>
    intro cur best hmem hgood
    simp only [innerLoop]
    apply ih
    · intro j2 hj2
      exact hmem j2 (List.mem_cons_of_mem _ hj2)
    · by_cases hlt : best.bestsize < chainLen mp j
      · rw [if_pos hlt]
        obtain ⟨hjlo, hjhi, hjv⟩ := hmem j (List.mem_cons_self j rest)
        obtain ⟨hc1, hc2, hc3⟩ := chainNew a b alo blo bhi r mp hchain har j hjlo hjv
        refine ⟨by simp; omega, by simp; omega, by simp; omega, by simp; omega, ?_⟩
        exact matchAt_of_rev a b r j (chainLen mp j) hc3 (by omega) (by omega)
      · rw [if_neg hlt]
        exact hgood

theorem innerLoop_chainInv (a b : List String) (alo blo bhi r : Nat)
    (mp : List (Nat × Nat)) (hchain : ChainInv a b alo blo bhi r mp)
    (har : alo ≤ r) (js : List Nat) (best : Best)
    (hmem : ∀ j ∈ js, blo ≤ j ∧ j < bhi ∧ b.getD j "" = a.getD r "") :
    ChainInv a b alo blo bhi (r + 1) (innerLoop r mp js [] best).1 := by
  intro q hq
  rw [innerLoop_fst] at hq ⊢
  by_cases hmemq : q ∈ js
  · rw [if_pos hmemq] at hq ⊢
    obtain ⟨hjlo, hjhi, hjv⟩ := hmem q hmemq
    obtain ⟨hc1, hc2, hc3⟩ := chainNew a b alo blo bhi r mp hchain har q hjlo hjv
    refine ⟨by omega, by omega, hjhi, ?_⟩
    intro t ht
    have := hc3 t ht
    have e1 : r + 1 - 1 - t = r - t := by omega
    rw [e1]
    exact this
  · rw [if_neg hmemq] at hq
    simp [lookupD] at hq

theorem dpLoop_good (a b : List String) (alo ahi blo bhi : Nat) :
    ∀ (cnt r : Nat) (mp : List (Nat × Nat)) (best : Best), alo ≤ r → r + cnt = ahi →
      ChainInv a b alo blo bhi r mp → GoodBlock a b alo ahi blo bhi best →
      GoodBlock a b alo ahi blo bhi
        (dpLoop a (mkB2j b) blo bhi (List.range' r cnt) mp best) := by
  intro cnt
  induction cnt with
  | zero =>
    intro r mp best _ _ _ hgood
    simpa [List.range', dpLoop] using hgood
  | succ cnt2 ih =>
    intro r mp best hr hcnt hchain hgood
    have hstep : List.range' r (cnt2 + 1) = r :: List.range' (r + 1) cnt2 := rfl
    rw [hstep]
    simp only [dpLoop]
    have hrhi : r < ahi := by omega
    have hmem : ∀ j ∈ (b2jGet (mkB2j b) (a.getD r "")).filter
        (fun j => decide (blo ≤ j) && decide (j < bhi)),
        blo ≤ j ∧ j < bhi ∧ b.getD j "" = a.getD r "" := by
      intro j hj
      have hj1 := List.mem_of_mem_filter hj
      have hj2 := List.of_mem_filter hj
      simp only [Bool.and_eq_true, decide_eq_true_eq] at hj2
      exact ⟨hj2.1, hj2.2, (b2jGet_sound b (a.getD r "") j hj1).2⟩
    apply ih (r + 1) _ _ (by omega) (by omega)
    · exact innerLoop_chainInv a b alo blo bhi r mp hchain hr _ best hmem
    · exact innerLoop_good a b alo ahi blo bhi r mp hchain hr hrhi _ [] best hmem hgood

theorem extendBackNonjunk_good (a b : List String) (alo ahi blo bhi : Nat) :
    ∀ (besti bestj bestsize : Nat),
      GoodBlock a b alo ahi blo bhi ⟨besti, bestj, bestsize⟩ →
      GoodBlock a b alo ahi blo bhi (extendBackNonjunk a b alo blo besti bestj bestsize) := by
  intro besti
  induction besti with
  | zero =>
    intro bestj bestsize hgood
    simpa [extendBackNonjunk] using hgood
  | succ bi ih =>
    intro bestj bestsize hgood
    obtain ⟨hg1, hg2, hg3, hg4, hg5⟩ := hgood
    simp only [extendBackNonjunk]
    simp only at hg1 hg2 hg3 hg4 hg5
    by_cases hc : alo < bi + 1 ∧ blo < bestj ∧ isbjunk (b.getD (bestj - 1) "") = false ∧
        a.getD bi "" = b.getD (bestj - 1) ""
    · rw [if_pos hc]
      obtain ⟨hc1, hc2, hc3, hc4⟩ := hc
      apply ih
      refine ⟨by simp; omega, by simp; omega, by simp; omega, by simp; omega, ?_⟩
      intro t ht
      simp only at ht
      cases t with
      | zero => simpa using hc4
      | succ t2 =>
        have e1 : bi + (t2 + 1) = (bi + 1) + t2 := by omega
        have e2 : bestj - 1 + (t2 + 1) = bestj + t2 := by omega
        show a.getD (bi + (t2 + 1)) "" = b.getD (bestj - 1 + (t2 + 1)) ""
        rw [e1, e2]
        exact hg5 t2 (by omega)
    · rw [if_neg hc]
      exact ⟨hg1, hg2, hg3, hg4, hg5⟩

theorem extendFwdNonjunk_good (a b : List String) (alo ahi blo bhi : Nat) :
    ∀ (rem besti bestj bestsize : Nat),
      GoodBlock a b alo ahi blo bhi ⟨besti, bestj, bestsize⟩ →
      GoodBlock a b alo ahi blo bhi
        ⟨besti, bestj, extendFwdNonjunk a b ahi bhi besti bestj rem bestsize⟩ := by
  intro rem
  induction rem with
  | zero =>
    intro besti bestj bestsize hgood
    simpa [extendFwdNonjunk] using hgood
  | succ rem2 ih =>
    intro besti bestj bestsize hgood
    obtain ⟨hg1, hg2, hg3, hg4, hg5⟩ := hgood
    simp only [extendFwdNonjunk]
    simp only at hg1 hg2 hg3 hg4 hg5
    by_cases hc : besti + bestsize < ahi ∧ bestj + bestsize < bhi ∧
        isbjunk (b.getD (bestj + bestsize) "") = false ∧
        a.getD (besti + bestsize) "" = b.getD (bestj + bestsize) ""
    · rw [if_pos hc]
      obtain ⟨hc1, hc2, hc3, hc4⟩ := hc
      apply ih
      refine ⟨by simp; omega, by simp; omega, by simp; omega, by simp; omega, ?_⟩
      intro t ht
      simp only at ht
      by_cases htb : t < bestsize
      · exact hg5 t htb
      · have : t = bestsize := by omega
        subst this
        exact hc4
    · rw [if_neg hc]
      exact ⟨hg1, hg2, hg3, hg4, hg5⟩

theorem extendBackJunk_id (a b : List String) (alo blo : Nat) :
    ∀ (besti bestj bestsize : Nat),
      extendBackJunk a b alo blo besti bestj bestsize = ⟨besti, bestj, bestsize⟩ := by
  intro besti bestj bestsize
  cases besti with
  | zero => rfl
  | succ bi => simp [extendBackJunk, isbjunk]

theorem extendFwdJunk_id (a b : List String) (ahi bhi besti bestj : Nat) :
    ∀ (rem bestsize : Nat),
      extendFwdJunk a b ahi bhi besti bestj rem bestsize = bestsize := by
  intro rem bestsize
  cases rem with
  | zero => rfl
  | succ r2 => simp [extendFwdJunk, isbjunk]

theorem flm_good (a b : List String) (alo ahi blo bhi : Nat)
    (h1 : alo ≤ ahi) (h2 : blo ≤ bhi) :
    GoodBlock a b alo ahi blo bhi (find_longest_match a b (mkB2j b) alo ahi blo bhi) := by
  unfold find_longest_match
  have hdp : GoodBlock a b alo ahi blo bhi
      (dpLoop a (mkB2j b) blo bhi (List.range' alo (ahi - alo)) [] ⟨alo, blo, 0⟩) := by
    apply dpLoop_good a b alo ahi blo bhi (ahi - alo) alo [] ⟨alo, blo, 0⟩
      (Nat.le_refl alo) (by omega)
    · intro j hj
      simp [lookupD] at hj
    · exact ⟨Nat.le_refl alo, by simpa using h1, Nat.le_refl blo, by simpa using h2,
        fun t ht => absurd ht (by simp)⟩
  set best := dpLoop a (mkB2j b) blo bhi (List.range' alo (ahi - alo)) [] ⟨alo, blo, 0⟩
    with hbest
  have hb1 : GoodBlock a b alo ahi blo bhi
      (extendBackNonjunk a b alo blo best.besti best.bestj best.bestsize) :=
    extendBackNonjunk_good a b alo ahi blo bhi best.besti best.bestj best.bestsize hdp
  set b1 := extendBackNonjunk a b alo blo best.besti best.bestj best.bestsize with hb1d
  have hs1 : GoodBlock a b alo ahi blo bhi
      ⟨b1.besti, b1.bestj, extendFwdNonjunk a b ahi bhi b1.besti b1.bestj
        (ahi - (b1.besti + b1.bestsize)) b1.bestsize⟩ :=
    extendFwdNonjunk_good a b alo ahi blo bhi (ahi - (b1.besti + b1.bestsize))
      b1.besti b1.bestj b1.bestsize hb1
  simp only [extendBackJunk_id, extendFwdJunk_id]
  exact hs1

/-- The collected matching blocks are ordered with strict separation, sized,
bounded by the window, and are genuine matches. -/
def BlocksChain (a b : List String) (hi hi2 : Nat) :
    Nat → Nat → List (Nat × Nat × Nat) → Prop
  | _, _, [] => True
  | lo, lo2, (bi, bj, bk) :: rest =>
    lo ≤ bi ∧ lo2 ≤ bj ∧ 0 < bk ∧ bi + bk ≤ hi ∧ bj + bk ≤ hi2 ∧
      matchAt a b bi bj bk ∧ BlocksChain a b hi hi2 (bi + bk) (bj + bk) rest

theorem blocksChain_lower (a b : List String) (hi hi2 : Nat) :
    ∀ (l : List (Nat × Nat × Nat)) (lo lo2 lo' lo2' : Nat), lo' ≤ lo → lo2' ≤ lo2 →
      BlocksChain a b hi hi2 lo lo2 l → BlocksChain a b hi hi2 lo' lo2' l := by
  intro l lo lo2 lo' lo2' h1 h2 hc
  cases l with
  | nil => trivial
  | cons p rest =>
    obtain ⟨bi, bj, bk⟩ := p
    obtain ⟨hc1, hc2, hc3, hc4, hc5, hc6, hc7⟩ := hc
    exact ⟨Nat.le_trans h1 hc1, Nat.le_trans h2 hc2, hc3, hc4, hc5, hc6, hc7⟩

theorem blocksChain_append (a b : List String) (hi hi2 : Nat) :
    ∀ (l : List (Nat × Nat × Nat)) (lo lo2 m m2 : Nat) (r : List (Nat × Nat × Nat)),
      BlocksChain a b m m2 lo lo2 l → BlocksChain a b hi hi2 m m2 r →
      lo ≤ m → lo2 ≤ m2 → m ≤ hi → m2 ≤ hi2 →
      BlocksChain a b hi hi2 lo lo2 (l ++ r) := by
  intro l
  induction l with
  | nil =>
    intro lo lo2 m m2 r _ hr hlo hlo2 _ _
    exact blocksChain_lower a b hi hi2 r m m2 lo lo2 hlo hlo2 hr
  | cons p rest ih =>
    intro lo lo2 m m2 r hl hr hlo hlo2 hm hm2
    obtain ⟨bi, bj, bk⟩ := p
    obtain ⟨hc1, hc2, hc3, hc4, hc5, hc6, hc7⟩ := hl
    exact ⟨hc1, hc2, hc3, Nat.le_trans hc4 hm, Nat.le_trans hc5 hm2, hc6,
      ih (bi + bk) (bj + bk) m m2 r hc7 hr hc4 hc5 hm hm2⟩

theorem matchBlocksRec_chain (a b : List String) :
    ∀ (fuel alo ahi blo bhi : Nat), alo ≤ ahi → blo ≤ bhi →
      BlocksChain a b ahi bhi alo blo
        (matchBlocksRec a b (mkB2j b) fuel alo ahi blo bhi) := by
  intro fuel
  induction fuel with
  | zero => intro alo ahi blo bhi _ _; trivial
  | succ fuel2 ih =>
    intro alo ahi blo bhi h1 h2
    have hgood := flm_good a b alo ahi blo bhi h1 h2
    obtain ⟨hg1, hg2, hg3, hg4, hg5⟩ := hgood
    simp only [matchBlocksRec]
    set m := find_longest_match a b (mkB2j b) alo ahi blo bhi with hm
    by_cases hk : m.bestsize = 0
    · rw [if_pos hk]
      trivial
    · rw [if_neg hk]
      have hleft : BlocksChain a b m.besti m.bestj alo blo
          (if alo < m.besti ∧ blo < m.bestj then
            matchBlocksRec a b (mkB2j b) fuel2 alo m.besti blo m.bestj else []) := by
        by_cases hcl : alo < m.besti ∧ blo < m.bestj
        · rw [if_pos hcl]
          exact ih alo m.besti blo m.bestj hg1 hg3
        · rw [if_neg hcl]
          trivial
      have hright : BlocksChain a b ahi bhi (m.besti + m.bestsize) (m.bestj + m.bestsize)
          (if m.besti + m.bestsize < ahi ∧ m.bestj + m.bestsize < bhi then
            matchBlocksRec a b (mkB2j b) fuel2 (m.besti + m.bestsize) ahi
              (m.bestj + m.bestsize) bhi else []) := by
        by_cases hcr : m.besti + m.bestsize < ahi ∧ m.bestj + m.bestsize < bhi
        · rw [if_pos hcr]
          exact ih (m.besti + m.bestsize) ahi (m.bestj + m.bestsize) bhi
            (Nat.le_of_lt hcr.1) (Nat.le_of_lt hcr.2)
        · rw [if_neg hcr]
          trivial
      have hmid : BlocksChain a b ahi bhi m.besti m.bestj
          ((m.besti, m.bestj, m.bestsize) :: (if m.besti + m.bestsize < ahi ∧
              m.bestj + m.bestsize < bhi then
            matchBlocksRec a b (mkB2j b) fuel2 (m.besti + m.bestsize) ahi
              (m.bestj + m.bestsize) bhi else [])) :=
        ⟨Nat.le_refl _, Nat.le_refl _, Nat.pos_of_ne_zero hk, hg2, hg4, hg5, hright⟩
      have := blocksChain_append a b ahi bhi _ alo blo m.besti m.bestj _ hleft hmid
        hg1 hg3 (by omega) (by omega)
      simpa using this

theorem mergeBlocksAux_chain (a b : List String) (hi hi2 : Nat) :
    ∀ (blocks : List (Nat × Nat × Nat)) (i1 j1 k1 : Nat),
      BlocksChain a b hi hi2 (i1 + k1) (j1 + k1) blocks →
      matchAt a b i1 j1 k1 → i1 + k1 ≤ hi → j1 + k1 ≤ hi2 →
      BlocksChain a b hi hi2 i1 j1 (mergeBlocksAux i1 j1 k1 blocks) := by
  intro blocks
  induction blocks with
  | nil =>
    intro i1 j1 k1 _ hmatch hb1 hb2
    simp only [mergeBlocksAux]
    by_cases hk : k1 ≠ 0
    · rw [if_pos hk]
      exact ⟨Nat.le_refl _, Nat.le_refl _, Nat.pos_of_ne_zero hk, hb1, hb2, hmatch, trivial⟩
    · rw [if_neg hk]
      trivial
  | cons p rest ih =>
    intro i1 j1 k1 hchain hmatch hb1 hb2
    obtain ⟨i2, j2, k2⟩ := p
    obtain ⟨hc1, hc2, hc3, hc4, hc5, hc6, hc7⟩ := hchain
    simp only [mergeBlocksAux]
    by_cases hadj : i1 + k1 = i2 ∧ j1 + k1 = j2
    · rw [if_pos hadj]
      apply ih i1 j1 (k1 + k2)
      · have e1 : i1 + (k1 + k2) = i2 + k2 := by omega
        have e2 : j1 + (k1 + k2) = j2 + k2 := by omega
        rw [e1, e2]
        exact hc7
      · intro t ht
        by_cases htk : t < k1
        · exact hmatch t htk
        · have h6 := hc6 (t - k1) (by omega)
          have e1 : i1 + t = i2 + (t - k1) := by omega
          have e2 : j1 + t = j2 + (t - k1) := by omega
          rw [e1, e2]
          exact h6
      · omega
      · omega
    · rw [if_neg hadj]
      have hrest : BlocksChain a b hi hi2 i2 j2 (mergeBlocksAux i2 j2 k2 rest) :=
        ih i2 j2 k2 hc7 hc6 hc4 hc5
      by_cases hk : k1 ≠ 0
      · rw [if_pos hk]
        refine ⟨Nat.le_refl _, Nat.le_refl _, Nat.pos_of_ne_zero hk, hb1, hb2, hmatch, ?_⟩
        simpa using blocksChain_lower a b hi hi2 _ i2 j2 (i1 + k1) (j1 + k1) hc1 hc2 hrest
      · rw [if_neg hk]
        have hk0 : k1 = 0 := by omega
        subst hk0
        simp only [List.nil_append]
        exact blocksChain_lower a b hi hi2 _ i2 j2 (i1 + 0) (j1 + 0) hc1 hc2 hrest

/-- The per-opcode contribution of the change-counting loop, in recursive
form. -/
def countOpsR : List Opcode → Nat
  | [] => 0
  | op :: rest =>
    (if op.tag = .replace ∨ op.tag = .delete ∨ op.tag = .insert then
      max (op.i2 - op.i1) (op.j2 - op.j1)
     else 0) + countOpsR rest

theorem foldl_count_eq (ops : List Opcode) :
    ∀ acc : Nat,
      ops.foldl
        (fun changes op =>
          if op.tag = .replace ∨ op.tag = .delete ∨ op.tag = .insert then
            changes + max (op.i2 - op.i1) (op.j2 - op.j1)
          else changes) acc = acc + countOpsR ops := by
  induction ops with
  | nil => intro acc; simp [countOpsR]
  | cons op rest ih =>
    intro acc
    rw [List.foldl_cons, ih]
    simp only [countOpsR]
    by_cases hc : op.tag = OpTag.replace ∨ op.tag = OpTag.delete ∨ op.tag = OpTag.insert
    · rw [if_pos hc, if_pos hc]
      omega
    · rw [if_neg hc, if_neg hc]
      omega

theorem countOpsR_append (l1 l2 : List Opcode) :
    countOpsR (l1 ++ l2) = countOpsR l1 + countOpsR l2 := by
  induction l1 with
  | nil => simp [countOpsR]
  | cons op rest ih =>
    rw [List.cons_append]
    simp only [countOpsR]
    rw [ih]
    omega

/-- If the running count is zero, the gap in front of the next block is
empty and the rest also counts zero. -/
theorem gap_zero (i j ai bj size : Nat) (rest : List (Nat × Nat × Nat))
    (h : countOpsR (opcodesAux i j ((ai, bj, size) :: rest)) = 0) :
    ai ≤ i ∧ bj ≤ j ∧ countOpsR (opcodesAux (ai + size) (bj + size) rest) = 0 := by
  simp only [opcodesAux] at h
  rw [countOpsR_append, countOpsR_append] at h
  have htag : countOpsR
      (if i < ai ∧ j < bj then [⟨.replace, i, ai, j, bj⟩]
       else if i < ai then [⟨.delete, i, ai, j, bj⟩]
       else if j < bj then [⟨.insert, i, ai, j, bj⟩]
       else ([] : List Opcode)) = 0 := by omega
  refine ⟨?_, ?_, by omega⟩
  · by_contra hlt
    have hia : i < ai := by omega
    by_cases hjb : j < bj
    · rw [if_pos ⟨hia, hjb⟩] at htag
      simp [countOpsR] at htag
      omega
    · rw [if_neg (fun hx => hjb hx.2), if_pos hia] at htag
      simp [countOpsR] at htag
      omega
  · by_contra hlt
    have hjb : j < bj := by omega
    by_cases hia : i < ai
    · rw [if_pos ⟨hia, hjb⟩] at htag
      simp [countOpsR] at htag
      omega
    · rw [if_neg (fun hx => hia hx.1), if_neg hia, if_pos hjb] at htag
      simp [countOpsR] at htag
      omega

theorem walk_eq (a b : List String) :
    ∀ (blocks : List (Nat × Nat × Nat)) (i j : Nat),
      BlocksChain a b a.length b.length i j blocks →
      countOpsR (opcodesAux i j (blocks ++ [(a.length, b.length, 0)])) = 0 →
      i = j → i ≤ a.length → j ≤ b.length →
      (∀ p, p < i → a.getD p "" = b.getD p "") →
      a.length = b.length ∧ ∀ p, p < a.length → a.getD p "" = b.getD p "" := by
  intro blocks
  induction blocks with
  | nil =>
    intro i j _ hcount hij hia hjb hcov
    simp only [List.nil_append] at hcount
    obtain ⟨h1, h2, _⟩ := gap_zero i j a.length b.length 0 [] hcount
    constructor
    · omega
    · intro p hp
      apply hcov
      omega
  | cons p rest ih =>
    intro i j hchain hcount hij hia hjb hcov
    obtain ⟨ai, bj, k⟩ := p
    obtain ⟨hc1, hc2, hc3, hc4, hc5, hc6, hc7⟩ := hchain
    rw [List.cons_append] at hcount
    obtain ⟨h1, h2, h3⟩ := gap_zero i j ai bj k (rest ++ [(a.length, b.length, 0)]) hcount
    have hai : ai = i := by omega
    have hbj : bj = j := by omega
    rw [hai] at hc4 hc6 hc7 h3
    rw [hbj] at hc5 hc6 hc7 h3
    apply ih (i + k) (j + k) hc7 h3 (by omega) hc4 hc5
    intro p hp
    by_cases hpi : p < i
    · exact hcov p hpi
    · have hmt := hc6 (p - i) (by omega)
      rw [show i + (p - i) = p from by omega] at hmt
      rw [show j + (p - i) = p from by omega] at hmt
      exact hmt

/-- Length of the run of consecutive positions ending at `p` whose word
survives the popularity purge (for the self-comparison argument). -/
def diagRun (a : List String) : Nat → Nat
  | 0 => if 0 ∈ b2jGet (mkB2j a) (a.getD 0 "") then 1 else 0
  | p + 1 => if (p + 1) ∈ b2jGet (mkB2j a) (a.getD (p + 1) "") then diagRun a p + 1 else 0

theorem diagRun_le (a : List String) : ∀ p, diagRun a p ≤ p + 1 := by
  intro p
  induction p with
  | zero =>
    simp only [diagRun]
    by_cases h : 0 ∈ b2jGet (mkB2j a) (a.getD 0 "")
    · rw [if_pos h]
    · rw [if_neg h]
      omega
  | succ p2 ih =>
    simp only [diagRun]
    by_cases h : (p2 + 1) ∈ b2jGet (mkB2j a) (a.getD (p2 + 1) "")
    · rw [if_pos h]
      omega
    · rw [if_neg h]
      omega

theorem diagRun_zero_of_not (a : List String) (p : Nat)
    (h : ¬ p ∈ b2jGet (mkB2j a) (a.getD p "")) : diagRun a p = 0 := by
  cases p with
  | zero =>
    simp only [diagRun]
    rw [if_neg h]
  | succ p2 =>
    simp only [diagRun]
    rw [if_neg h]

theorem diagRun_pos_of_mem (a : List String) (p : Nat)
    (h : p ∈ b2jGet (mkB2j a) (a.getD p "")) : 0 < diagRun a p := by
  cases p with
  | zero =>
    simp only [diagRun]
    rw [if_pos h]
    omega
  | succ p2 =>
    simp only [diagRun]
    rw [if_pos h]
    omega

theorem diagRun_succ_of_mem (a : List String) (q : Nat)
    (h : (q + 1) ∈ b2jGet (mkB2j a) (a.getD (q + 1) "")) :
    diagRun a (q + 1) = diagRun a q + 1 := by
  simp only [diagRun]
  rw [if_pos h]

/-- The diagonal-run value of the row before `r` (0 for the first row). -/
def prevDiag (a : List String) : Nat → Nat
  | 0 => 0
  | p + 1 => diagRun a p

/-- Invariant of the previous-row dict for the self-comparison: entries are
bounded by the diagonal runs and the previous diagonal entry is exact. -/
def MInv (a : List String) (r : Nat) (mp : List (Nat × Nat)) : Prop :=
  (∀ j, lookupD mp j ≤ diagRun a j) ∧ (∀ j, lookupD mp j ≤ prevDiag a r) ∧
    (0 < r → lookupD mp (r - 1) = diagRun a (r - 1))

/-- Invariant of the running best for the self-comparison: diagonal, inside
the sequence, and at least every completed diagonal run. -/
def BInv (a : List String) (r : Nat) (best : Best) : Prop :=
  best.besti = best.bestj ∧ best.besti + best.bestsize ≤ a.length ∧
    ∀ q, q < r → diagRun a q ≤ best.bestsize

theorem chainLen_zero (mp : List (Nat × Nat)) : chainLen mp 0 = 1 := by
  simp [chainLen]

theorem chainLen_succ (mp : List (Nat × Nat)) (p : Nat) :
    chainLen mp (p + 1) = lookupD mp p + 1 := by
  simp [chainLen]

theorem mem_np_of_mem (a : List String) (r j : Nat)
    (hj : j ∈ b2jGet (mkB2j a) (a.getD r "")) :
    j ∈ b2jGet (mkB2j a) (a.getD j "") := by
  have hs := b2jGet_sound a (a.getD r "") j hj
  rw [hs.2]
  exact hj

theorem row_np (a : List String) (r j : Nat) (hr : r < a.length)
    (hj : j ∈ b2jGet (mkB2j a) (a.getD r "")) :
    r ∈ b2jGet (mkB2j a) (a.getD r "") :=
  b2jGet_complete_of_mem a (a.getD r "") j r hj hr rfl

theorem chainLen_bounds (a : List String) (r : Nat) (hr : r < a.length)
    (mp : List (Nat × Nat)) (hmp : MInv a r mp) (j : Nat)
    (hj : j ∈ b2jGet (mkB2j a) (a.getD r "")) :
    chainLen mp j ≤ diagRun a j ∧ chainLen mp j ≤ diagRun a r ∧
      (j = r → chainLen mp j = diagRun a r) := by
  obtain ⟨hm1, hm2, hm3⟩ := hmp
  have hnpj : j ∈ b2jGet (mkB2j a) (a.getD j "") := mem_np_of_mem a r j hj
  have hnpr : r ∈ b2jGet (mkB2j a) (a.getD r "") := row_np a r j hr hj
  have hjle : chainLen mp j ≤ diagRun a j := by
    cases j with
    | zero =>
      rw [chainLen_zero]
      have := diagRun_pos_of_mem a 0 hnpj
      omega
    | succ p =>
      rw [chainLen_succ, diagRun_succ_of_mem a p hnpj]
      have := hm1 p
      omega
  refine ⟨hjle, ?_, ?_⟩
  · cases r with
    | zero =>
      have h0 : 0 < diagRun a 0 := diagRun_pos_of_mem a 0 hnpr
      cases j with
      | zero =>
        rw [chainLen_zero]
        omega
      | succ p =>
        rw [chainLen_succ]
        have := hm2 p
        simp only [prevDiag] at this
        omega
    | succ q =>
      have hdr : diagRun a (q + 1) = diagRun a q + 1 := diagRun_succ_of_mem a q hnpr
      cases j with
      | zero =>
        rw [chainLen_zero]
        omega
      | succ p =>
        rw [chainLen_succ]
        have := hm2 p
        simp only [prevDiag] at this
        omega
  · intro hjr
    subst hjr
    cases r : j with
    | zero =>
      subst r
      rw [chainLen_zero]
      have h0 : 0 < diagRun a 0 := diagRun_pos_of_mem a 0 hnpr
      have h1 : diagRun a 0 ≤ 1 := diagRun_le a 0
      omega
    | succ q =>
      subst r
      have hdr : diagRun a (q + 1) = diagRun a q + 1 := diagRun_succ_of_mem a q hnpr
      rw [chainLen_succ]
      have hex := hm3 (Nat.succ_pos q)
      simp only [Nat.add_sub_cancel] at hex
      omega

theorem innerLoop_diag (a : List String) (r : Nat) (hr : r < a.length)
    (mp : List (Nat × Nat)) (hmp : MInv a r mp) :
    ∀ (js : List Nat) (cur : List (Nat × Nat)) (best : Best),
      (∀ j ∈ js, j ∈ b2jGet (mkB2j a) (a.getD r "")) → js.Pairwise (· < ·) →
      BInv a r best → (diagRun a r ≤ best.bestsize ∨ r ∈ js) →
      BInv a (r + 1) (innerLoop r mp js cur best).2 := by
  intro js
  induction js with
  | nil =>
    intro cur best _ _ hbest hdisj
    obtain ⟨hb1, hb2, hb3⟩ := hbest
    have hdr : diagRun a r ≤ best.bestsize := by
      rcases hdisj with h | h
      · exact h
      · simp at h
    refine ⟨hb1, hb2, ?_⟩
    intro q hq
    by_cases hqr : q < r
    · exact hb3 q hqr
    · have : q = r := by omega
      subst this
      exact hdr
  | cons j rest ih =>
    intro cur best hmem hsort hbest hdisj
    have hjmem := hmem j (List.mem_cons_self j rest)
    obtain ⟨hcb1, hcb2, hcb3⟩ := chainLen_bounds a r hr mp hmp j hjmem
    obtain ⟨hb1, hb2, hb3⟩ := hbest
    have hsort2 : rest.Pairwise (· < ·) := (List.pairwise_cons.1 hsort).2
    have hjlt : ∀ x ∈ rest, j < x := (List.pairwise_cons.1 hsort).1
    simp only [innerLoop]
    rcases hdisj with hle | hmemr
    · -- the best already dominates the diagonal run of this row
      have hnoup : ¬ best.bestsize < chainLen mp j := by omega
      rw [if_neg hnoup]
      exact ih _ best (fun x hx => hmem x (List.mem_cons_of_mem _ hx)) hsort2
        ⟨hb1, hb2, hb3⟩ (Or.inl hle)
    · by_cases hjr : j = r
      · subst hjr
        have hexact : chainLen mp j = diagRun a j := hcb3 rfl
        by_cases hup : best.bestsize < chainLen mp j
        · rw [if_pos hup]
          apply ih _ _ (fun x hx => hmem x (List.mem_cons_of_mem _ hx)) hsort2
          · refine ⟨rfl, ?_, ?_⟩
            · simp only
              have := diagRun_le a j
              omega
            · intro q hq
              simp only
              have := hb3 q hq
              omega
          · left
            simp only
            omega
        · rw [if_neg hup]
          exact ih _ best (fun x hx => hmem x (List.mem_cons_of_mem _ hx)) hsort2
            ⟨hb1, hb2, hb3⟩ (Or.inl (by omega))
      · have hrrest : r ∈ rest := by
          rcases List.mem_cons.1 hmemr with h | h
          · exact absurd h.symm hjr
          · exact h
        have hjltr : j < r := hjlt r hrrest
        have hnoup : ¬ best.bestsize < chainLen mp j := by
          have := hb3 j hjltr
          omega
        rw [if_neg hnoup]
        exact ih _ best (fun x hx => hmem x (List.mem_cons_of_mem _ hx)) hsort2
          ⟨hb1, hb2, hb3⟩ (Or.inr hrrest)

theorem innerLoop_minv (a : List String) (r : Nat) (hr : r < a.length)
    (mp : List (Nat × Nat)) (hmp : MInv a r mp) (js : List Nat) (best : Best)
    (hmem : ∀ j ∈ js, j ∈ b2jGet (mkB2j a) (a.getD r ""))
    (hjs : (r ∈ b2jGet (mkB2j a) (a.getD r "")) → r ∈ js) :
    MInv a (r + 1) (innerLoop r mp js [] best).1 := by
  refine ⟨?_, ?_, ?_⟩
  · intro q
    rw [innerLoop_fst]
    by_cases hq : q ∈ js
    · rw [if_pos hq]
      exact (chainLen_bounds a r hr mp hmp q (hmem q hq)).1
    · rw [if_neg hq]
      simp [lookupD]
  · intro q
    rw [innerLoop_fst]
    by_cases hq : q ∈ js
    · rw [if_pos hq]
      simpa [prevDiag] using (chainLen_bounds a r hr mp hmp q (hmem q hq)).2.1
    · rw [if_neg hq]
      simp [lookupD]
  · intro _
    rw [innerLoop_fst]
    simp only [Nat.add_sub_cancel]
    by_cases hq : r ∈ js
    · rw [if_pos hq]
      exact (chainLen_bounds a r hr mp hmp r (hmem r hq)).2.2 rfl
    · rw [if_neg hq]
      have hnp : ¬ r ∈ b2jGet (mkB2j a) (a.getD r "") := fun h => hq (hjs h)
      rw [diagRun_zero_of_not a r hnp]
      simp [lookupD]

theorem js_full (a : List String) (r : Nat) :
    (b2jGet (mkB2j a) (a.getD r "")).filter
        (fun j => decide (0 ≤ j) && decide (j < a.length)) =
      b2jGet (mkB2j a) (a.getD r "") := by
  apply List.filter_eq_self.mpr
  intro j hj
  have := (b2jGet_sound a (a.getD r "") j hj).1
  simp [this]

theorem dpLoop_diag (a : List String) :
    ∀ (cnt r : Nat) (mp : List (Nat × Nat)) (best : Best), r + cnt = a.length →
      MInv a r mp → BInv a r best →
      BInv a a.length (dpLoop a (mkB2j a) 0 a.length (List.range' r cnt) mp best) := by
  intro cnt
  induction cnt with
  | zero =>
    intro r mp best hr _ hbest
    have : r = a.length := by omega
    subst this
    simpa [List.range', dpLoop] using hbest
  | succ cnt2 ih =>
    intro r mp best hr hmp hbest
    have hstep : List.range' r (cnt2 + 1) = r :: List.range' (r + 1) cnt2 := rfl
    rw [hstep]
    simp only [dpLoop, js_full]
    have hrlt : r < a.length := by omega
    have hmem : ∀ j ∈ b2jGet (mkB2j a) (a.getD r ""), j ∈ b2jGet (mkB2j a) (a.getD r "") :=
      fun j hj => hj
    have hsorted : (b2jGet (mkB2j a) (a.getD r "")).Pairwise (· < ·) := b2jGet_sorted a _
    have hdisj : diagRun a r ≤ best.bestsize ∨ r ∈ b2jGet (mkB2j a) (a.getD r "") := by
      by_cases hnp : r ∈ b2jGet (mkB2j a) (a.getD r "")
      · exact Or.inr hnp
      · left
        rw [diagRun_zero_of_not a r hnp]
        omega
    apply ih (r + 1) _ _ (by omega)
    · exact innerLoop_minv a r hrlt mp hmp _ best hmem (fun h => h)
    · exact innerLoop_diag a r hrlt mp hmp _ [] best hmem hsorted hbest hdisj

theorem extendBack_self (a : List String) :
    ∀ t s, extendBackNonjunk a a 0 0 t t s = ⟨0, 0, s + t⟩ := by
  intro t
  induction t with
  | zero =>
    intro s
    simp [extendBackNonjunk]
  | succ t2 ih =>
    intro s
    rw [extendBackNonjunk]
    split
    · rw [Nat.add_sub_cancel, ih (s + 1)]
      have : s + 1 + t2 = s + (t2 + 1) := by omega
      rw [this]
    · rename_i hcond
      exfalso
      apply hcond
      refine ⟨Nat.succ_pos t2, Nat.succ_pos t2, ?_, ?_⟩ <;> simp [isbjunk]

theorem extendFwd_self (a : List String) :
    ∀ rem s, s + rem = a.length →
      extendFwdNonjunk a a a.length a.length 0 0 rem s = a.length := by
  intro rem
  induction rem with
  | zero =>
    intro s h
    simp only [extendFwdNonjunk]
    omega
  | succ rem2 ih =>
    intro s h
    rw [extendFwdNonjunk]
    split
    · exact ih (s + 1) (by omega)
    · rename_i hcond
      exfalso
      apply hcond
      refine ⟨by omega, by omega, ?_, ?_⟩ <;> simp [isbjunk]

theorem flm_self (a : List String) :
    find_longest_match a a (mkB2j a) 0 a.length 0 a.length = ⟨0, 0, a.length⟩ := by
  have hdp : BInv a a.length
      (dpLoop a (mkB2j a) 0 a.length (List.range' 0 (a.length - 0)) [] ⟨0, 0, 0⟩) := by
    apply dpLoop_diag a (a.length - 0) 0 [] ⟨0, 0, 0⟩ (by omega)
    · refine ⟨fun j => ?_, fun j => ?_, fun h => absurd h (by omega)⟩
      · simp [lookupD]
      · simp [lookupD, prevDiag]
    · refine ⟨rfl, by simp, fun q hq => absurd hq (by omega)⟩
  unfold find_longest_match
  set best := dpLoop a (mkB2j a) 0 a.length (List.range' 0 (a.length - 0)) [] ⟨0, 0, 0⟩
    with hbestd
  obtain ⟨hd1, hd2, _⟩ := hdp
  have hback : extendBackNonjunk a a 0 0 best.besti best.bestj best.bestsize =
      ⟨0, 0, best.bestsize + best.besti⟩ := by
    rw [← hd1]
    exact extendBack_self a best.besti best.bestsize
  have hfwd : extendFwdNonjunk a a a.length a.length 0 0
      (a.length - (best.bestsize + best.besti)) (best.bestsize + best.besti) = a.length :=
    extendFwd_self a (a.length - (best.bestsize + best.besti))
      (best.bestsize + best.besti) (by omega)
  simp only [hback, Nat.zero_add, Nat.add_zero, hfwd, extendBackJunk_id, extendFwdJunk_id]

theorem countOpsR_self (a : List String) : countOpsR (get_opcodes a a) = 0 := by
  unfold get_opcodes get_matching_blocks
  simp only [matchBlocksRec, flm_self]
  by_cases hn : a.length = 0
  · simp [hn, mergeBlocksAux, opcodesAux, countOpsR]
  · have h1 : ¬ ((0 : Nat) < 0 ∧ (0 : Nat) < 0) := by omega
    have h2 : ¬ ((0 : Nat) < 0) := by omega
    simp only [Nat.zero_add, Nat.add_zero, if_neg h1, if_neg h2, Nat.lt_irrefl]
    simp [hn, mergeBlocksAux, opcodesAux, countOpsR, List.nil_append, List.append_nil,
      Nat.lt_irrefl]

theorem count_text_changes_eq (pre_caption final_caption : String) :
    count_text_changes pre_caption final_caption =
      countOpsR (get_opcodes (pySplitWs pre_caption) (pySplitWs final_caption)) := by
  unfold count_text_changes
  rw [foldl_count_eq]
  omega

theorem count_zero_imp_eq (a b : List String)
    (h : countOpsR (get_opcodes a b) = 0) : a = b := by
  unfold get_opcodes get_matching_blocks at h
  have hraw : BlocksChain a b a.length b.length 0 0
      (matchBlocksRec a b (mkB2j b) (a.length + b.length + 1) 0 a.length 0 b.length) :=
    matchBlocksRec_chain a b _ 0 a.length 0 b.length (Nat.zero_le _) (Nat.zero_le _)
  have hmerged : BlocksChain a b a.length b.length 0 0
      (mergeBlocksAux 0 0 0
        (matchBlocksRec a b (mkB2j b) (a.length + b.length + 1) 0 a.length 0 b.length)) := by
    have := mergeBlocksAux_chain a b a.length b.length _ 0 0 0
      (by simpa using hraw) (fun t ht => absurd ht (by omega)) (by simp) (by simp)
    exact this
  obtain ⟨hlen, hpt⟩ := walk_eq a b _ 0 0 hmerged h rfl (Nat.zero_le _) (Nat.zero_le _)
    (fun p hp => absurd hp (by omega))
  apply List.ext_getElem hlen
  intro p h1 h2
  have := hpt p h1
  rw [List.getD_eq_getElem?_getD, List.getD_eq_getElem?_getD] at this
  rw [List.getElem?_eq_getElem h1, List.getElem?_eq_getElem h2] at this
  simpa using this

/-- Claim C9: `count_text_changes` returns a nonnegative integer; it is zero
exactly when the two captions split into the same word sequence (so in
particular `count_text_changes(c, c) = 0`), and positive whenever the word
sequences differ. -/
theorem claim_C9_count_changes (pre_caption final_caption : String) :
    0 ≤ (count_text_changes pre_caption final_caption : Int) ∧
    (pySplitWs pre_caption = pySplitWs final_caption ↔
      count_text_changes pre_caption final_caption = 0) := by
  refine ⟨Int.ofNat_nonneg _, ?_, ?_⟩
  · intro h
    rw [count_text_changes_eq, h]
    exact countOpsR_self (pySplitWs final_caption)
  · intro h
    exact count_zero_imp_eq (pySplitWs pre_caption) (pySplitWs final_caption)
      (by rw [← count_text_changes_eq]; exact h)
